import Mathlib

/-!
# Verification of the `tortue-bencode` codec

A shallow embedding of the bencode value model, parser, writer, and the
serde serializer/deserializer bridges of the `tortue` repository
(`tortue-bencode` crate), together with proofs settling the specification
claims about them.

Byte strings are modelled as `List Nat` (each entry a byte value `< 256`);
Rust `&str`/`String` values are modelled by their UTF-8 byte lists.
Machine integers are modelled by `Nat`/`Int` with explicit `% 2^w`
reductions where the Rust code wraps.
-/

namespace Tortue

/-! ## Byte-level helpers -/

/-- ASCII decimal digit predicate (nom's `is_digit`: `0x30..=0x39`). -/
def isDigit (c : Nat) : Bool := 48 ≤ c && c ≤ 57

/-- `u32::MAX`. -/
def u32Max : Nat := 4294967295

/-- Numeric value of a big-endian list of ASCII decimal digits, as computed by
`from_str_radix` (base 10). -/
def digitsVal (ds : List Nat) : Nat :=
  Nat.ofDigits 10 ((ds.map (fun c => c - 48)).reverse)

/-- Decimal ASCII rendering of a natural number, as produced by Rust's
`format!("{}", n)` for unsigned values. -/
def natToDec (n : Nat) : List Nat :=
  if n = 0 then [48] else (Nat.digits 10 n).reverse.map (fun d => d + 48)

/-- Decimal ASCII rendering of an `i64`, as produced by `format!("{}", int)`:
an optional `'-'` (byte 45) followed by the digits of the magnitude. -/
def intAscii (n : Int) : List Nat :=
  if n < 0 then 45 :: natToDec n.natAbs else natToDec n.toNat

/-- `i64::from_str_radix(s, 10)` on a character run: an optional single
leading `'-'`, then at least one digit, every following character a digit,
and the resulting value within the `i64` range (checked arithmetic makes
out-of-range values an `Err`).  `none` models the `ParseIntError` case. -/
def parseRunI64 (l : List Nat) : Option Int :=
  match l with
  | [] => Option.none
  | c :: ds =>
    if c = 45 then
      if ds ≠ [] ∧ ds.all isDigit ∧ digitsVal ds ≤ 2 ^ 63 then
        some (-(digitsVal ds : Int))
      else Option.none
    else
      if (c :: ds).all isDigit ∧ digitsVal (c :: ds) ≤ 2 ^ 63 - 1 then
        some (digitsVal (c :: ds) : Int)
      else Option.none

/-- `u32::from_str_radix` on an all-digit run (the length-prefix digits):
fails exactly when the value exceeds `u32::MAX`. -/
def parseRunU32 (l : List Nat) : Option Nat :=
  if l ≠ [] ∧ l.all isDigit ∧ digitsVal l ≤ u32Max then some (digitsVal l)
  else none

/-- `std::str::from_utf8` validity of a byte list (the standard UTF-8
acceptance automaton, including the surrogate and overlong exclusions). -/
def validUtf8 : List Nat → Bool
  | [] => true
  | c :: rest =>
    if c < 128 then validUtf8 rest
    else if 194 ≤ c && c ≤ 223 then
      match rest with
      | c1 :: r => (128 ≤ c1 && c1 ≤ 191) && validUtf8 r
      | [] => false
    else if c = 224 then
      match rest with
      | c1 :: c2 :: r =>
        (160 ≤ c1 && c1 ≤ 191) && (128 ≤ c2 && c2 ≤ 191) && validUtf8 r
      | _ => false
    else if (225 ≤ c && c ≤ 236) || (238 ≤ c && c ≤ 239) then
      match rest with
      | c1 :: c2 :: r =>
        (128 ≤ c1 && c1 ≤ 191) && (128 ≤ c2 && c2 ≤ 191) && validUtf8 r
      | _ => false
    else if c = 237 then
      match rest with
      | c1 :: c2 :: r =>
        (128 ≤ c1 && c1 ≤ 159) && (128 ≤ c2 && c2 ≤ 191) && validUtf8 r
      | _ => false
    else if c = 240 then
      match rest with
      | c1 :: c2 :: c3 :: r =>
        (144 ≤ c1 && c1 ≤ 191) && (128 ≤ c2 && c2 ≤ 191) &&
          (128 ≤ c3 && c3 ≤ 191) && validUtf8 r
      | _ => false
    else if 241 ≤ c && c ≤ 243 then
      match rest with
      | c1 :: c2 :: c3 :: r =>
        (128 ≤ c1 && c1 ≤ 191) && (128 ≤ c2 && c2 ≤ 191) &&
          (128 ≤ c3 && c3 ≤ 191) && validUtf8 r
      | _ => false
    else if c = 244 then
      match rest with
      | c1 :: c2 :: c3 :: r =>
        (128 ≤ c1 && c1 ≤ 143) && (128 ≤ c2 && c2 ≤ 191) &&
          (128 ≤ c3 && c3 ≤ 191) && validUtf8 r
      | _ => false
    else false

/-- Number of characters of a valid UTF-8 byte list (`str::chars().count()`):
the count of non-continuation bytes. -/
def utf8CharCount (l : List Nat) : Nat :=
  (l.filter (fun c => !(128 ≤ c && c ≤ 191))).length

/-! ## `nom` result type

The parser is built on nom 5 combinators.  `IResult` outcomes are `Ok`,
`Err::Error` (recoverable, carries `(input, ErrorKind)`), and
`Err::Incomplete(Needed::Size(n))`.  `Err::Failure` never arises in this
code (no `cut`), so it is not modelled. -/

inductive ErrKind where
  | tag | takeWhileMN | mapRes | char | verify | eof | complete | many0
  deriving DecidableEq, Repr

inductive PResult (α : Type) where
  | ok (rest : List Nat) (val : α)
  | err (rest : List Nat) (kind : ErrKind)
  | incomplete (needed : Nat)
  deriving DecidableEq, Repr

/-! ## Leaf parsers (`parser/int.rs`, `parser/string.rs`, `parser/bytes.rs`) -/

/-- `parse_utf8_str`: consumes the whole input if it is valid UTF-8 (returning
the same bytes, standing for the `&str` view), else `Err::Error(Verify)`. -/
def parse_utf8_str (i : List Nat) : PResult (List Nat) :=
  if validUtf8 i then .ok [] i else .err i .verify

/-- nom's complete `take_while_m_n m n pred` followed by the given
`Result`-returning map (`map_res`): take `min(run, n)` characters of the
maximal matching prefix, error `TakeWhileMN` if the run is shorter than `m`,
error `MapRes` at the original input if the map fails. -/
def takeWhileMNmapRes (m n : Nat) (pred : Nat → Bool) (f : List Nat → Option α)
    (i : List Nat) : PResult α :=
  if (i.takeWhile pred).length < m then .err i .takeWhileMN
  else
    match f ((i.takeWhile pred).take n) with
    | some v => .ok (i.drop ((i.takeWhile pred).take n).length) v
    | Option.none => .err i .mapRes

/-- `base10_primary`: 1–20 characters drawn from digits and `'-'`, parsed by
`i64::from_str_radix` (via `parse_utf8_str`, which always succeeds on this
ASCII run). -/
def base10_primary (i : List Nat) : PResult Int :=
  takeWhileMNmapRes 1 20 (fun c => isDigit c || c == 45) parseRunI64 i

/-- `parse_int`: `delimited(tag("i"), base10_primary, tag("e"))`.
`tag` consumes the expected byte or fails with `ErrorKind::Tag` at its
input. -/
def parse_int (i : List Nat) : PResult Int :=
  match i with
  | c :: rest =>
    if c = 105 then
      match base10_primary rest with
      | .ok r v =>
        match r with
        | c2 :: r2 => if c2 = 101 then .ok r2 v else .err r .tag
        | [] => .err r .tag
      | .err r k => .err r k
      | .incomplete n => .incomplete n
    else .err i .tag
  | [] => .err i .tag

/-- `base10_length`: 1–20 digits parsed as a `u32`, then `v + 1` (wrapping
`u32` addition, modelled with release-mode wraparound semantics). -/
def base10_length (i : List Nat) : PResult Nat :=
  takeWhileMNmapRes 1 20 isDigit
    (fun ds => (parseRunU32 ds).map (fun v => (v + 1) % 4294967296)) i

/-- nom 5 `length_value(f, g)`: read a count `n` from `f`, fail with
`Incomplete(Needed::Size(n))` if fewer than `n` bytes remain, otherwise run
`g` on exactly the next `n` bytes (its leftover is discarded; an
`Incomplete` from `g` becomes `Error(Complete)`). -/
def lengthValue (f : List Nat → PResult Nat) (g : List Nat → PResult α)
    (i : List Nat) : PResult α :=
  match f i with
  | .ok i2 n =>
    if i2.length < n then .incomplete n
    else
      match g (i2.take n) with
      | .ok _ o => .ok (i2.drop n) o
      | .err r k => .err r k
      | .incomplete _ => .err (i2.take n) .complete
  | .err r k => .err r k
  | .incomplete n => .incomplete n

/-- `preceded(tag(":"), g)` on the length-delimited data. -/
def precededColon (g : List Nat → PResult α) (i : List Nat) : PResult α :=
  match i with
  | c :: rest => if c = 58 then g rest else .err i .tag
  | [] => .err i .tag

/-- `parse_string`: `length_value(base10_length, preceded(tag(":"), parse_utf8_str))`. -/
def parse_string (i : List Nat) : PResult (List Nat) :=
  lengthValue base10_length (precededColon parse_utf8_str) i

/-- `parse_bytes`: `length_value(base10_length, preceded(tag(":"), |input| Ok((&[], input))))`. -/
def parse_bytes (i : List Nat) : PResult (List Nat) :=
  lengthValue base10_length (precededColon (fun rest => .ok [] rest)) i

/-! Sanity checks against the crate's own unit tests. -/

example : parse_int [105, 51, 101] = .ok [] 3 := by decide
example : parse_int [105, 51, 101, 97, 98, 99] = .ok [97, 98, 99] 3 := by decide
example : parse_int [105, 45, 51, 101] = .ok [] (-3) := by decide
example : parse_int [105, 51] = .err [] .tag := by decide
example : parse_int [51, 101] = .err [51, 101] .tag := by decide
example : parse_int [105, 101] = .err [101] .takeWhileMN := by decide
example : parse_string [51, 58, 97, 98, 99] = .ok [] [97, 98, 99] := by decide
example : parse_string [51, 58, 97, 98, 99, 100, 101, 102] =
    .ok [100, 101, 102] [97, 98, 99] := by decide
example : parse_string [48, 58] = .ok [] [] := by decide
example : parse_string [48, 58, 97, 98, 99] = .ok [97, 98, 99] [] := by decide
example : parse_string [101, 58] = .err [101, 58] .takeWhileMN := by decide
example : parse_string [51, 97, 98, 99, 100] = .err [97, 98, 99, 100] .tag := by decide
example : parse_string [51, 58, 97, 98] = .incomplete 4 := by decide
example : parse_bytes [51, 58, 97, 98] = .incomplete 4 := by decide
example : parse_bytes [52, 58, 97, 98, 99, 60] = .ok [] [97, 98, 99, 60] := by decide
example : parse_bytes [48, 58, 97, 98, 99, 255] = .ok [97, 98, 99, 255] [] := by decide

/-! ## The value model (`lib.rs`, `BencodedValue`)

Rust `HashMap`s are modelled as association lists whose keys are pairwise
distinct (the invariant every `HashMap` maintains); iteration order is the
list order.  `&str` keys and `String` keys are both byte lists. -/

inductive BValue where
  | binary (b : List Nat)
  | binaryOwned (b : List Nat)
  | string (s : List Nat)
  | stringOwned (s : List Nat)
  | integer (n : Int)
  | list (l : List BValue)
  | dictionary (d : List (List Nat × BValue))
  | dictionaryOwned (d : List (List Nat × BValue))
  | none

/-- `HashMap::get`: the value stored at `k` (keys are unique, so the first
match is the entry). -/
def findV (d : List (List Nat × BValue)) (k : List Nat) : Option BValue :=
  match d with
  | [] => Option.none
  | (k', v) :: rest => if k' = k then some v else findV rest k

/-- `HashMap::insert` with last-write-wins: replaces the value at an existing
key, otherwise appends the entry. -/
def hmInsert (d : List (List Nat × BValue)) (k : List Nat) (v : BValue) :
    List (List Nat × BValue) :=
  match d with
  | [] => [(k, v)]
  | (k', v') :: rest =>
    if k' = k then (k, v) :: rest else (k', v') :: hmInsert rest k v

/-- `collect::<HashMap<_, _>>()` over a pair sequence: sequential inserts,
later entries overwriting earlier ones. -/
def collectHM (ps : List (List Nat × BValue)) : List (List Nat × BValue) :=
  ps.foldl (fun acc kv => hmInsert acc kv.1 kv.2) []

theorem findV_sizeOf {d : List (List Nat × BValue)} {k : List Nat} {v : BValue}
    (h : findV d k = some v) : sizeOf v < sizeOf d := by
  induction d with
  | nil => simp [findV] at h
  | cons p rest ih =>
    obtain ⟨k', v'⟩ := p
    simp only [findV] at h
    by_cases hk : k' = k
    · simp [hk] at h
      subst h
      simp
      omega
    · simp [hk] at h
      have := ih h
      simp
      omega

mutual

/-- `impl PartialEq for BencodedValue` (`lib.rs` lines 67–167), arm for arm.
Note the source has no `(StringOwned, StringOwned)` arm and no
`(None, None)` arm: both fall through to the final `_ => false`. -/
def beq : BValue → BValue → Bool
  | .binary b1, .binary b2 => b1 == b2
  | .binary b1, .binaryOwned b2 => b2 == b1
  | .binaryOwned b1, .binary b2 => b1 == b2
  | .binaryOwned b1, .binaryOwned b2 => b1 == b2
  | .binary b, .string s => b == s
  | .binaryOwned b, .string s => b == s
  | .binary b, .stringOwned s => b == s
  | .binaryOwned b, .stringOwned s => b == s
  | .string s, .binary b => b == s
  | .string s, .binaryOwned b => b == s
  | .stringOwned s, .binary b => b == s
  | .stringOwned s, .binaryOwned b => b == s
  | .string s1, .string s2 => s1 == s2
  | .stringOwned s1, .string s2 => s1 == s2
  | .string s1, .stringOwned s2 => s1 == s2
  | .integer n1, .integer n2 => n1 == n2
  | .list l1, .list l2 => beqL l1 l2
  | .dictionary d1, .dictionary d2 => d1.length == d2.length && dictAll1 d1 d2
  | .dictionaryOwned d1, .dictionaryOwned d2 =>
    d1.length == d2.length && dictAll1 d1 d2
  | .dictionaryOwned d1, .dictionary d2 => dictAll2 d1 d2
  | .dictionary d1, .dictionaryOwned d2 => dictAll2 d1 d2
  | _, _ => false
termination_by a b => sizeOf a + sizeOf b
decreasing_by all_goals (simp_wf; omega)

/-- `Vec<BencodedValue>` equality: pointwise `PartialEq` (`list1 == list2`). -/
def beqL : List BValue → List BValue → Bool
  | [], [] => true
  | x :: xs, y :: ys => beq x y && beqL xs ys
  | _, _ => false
termination_by a b => sizeOf a + sizeOf b
decreasing_by all_goals (simp_wf; omega)

/-- `HashMap` equality body: every entry of the left map is present in the
right map with a `PartialEq`-equal value (the `len` check is done by the
caller). -/
def dictAll1 : List (List Nat × BValue) → List (List Nat × BValue) → Bool
  | [], _ => true
  | (k, v1) :: rest, d2 =>
    (match h : findV d2 k with
     | some v2 => beq v1 v2
     | Option.none => false) &&
    dictAll1 rest d2
termination_by a b => sizeOf a + sizeOf b
decreasing_by
  all_goals simp_wf
  all_goals try omega
  all_goals (have hfv := findV_sizeOf h; omega)

/-- The cross-ownership dictionary comparison
`!dict1.iter().any(|(k1, v1)| dict2.get(k1) != Some(v1))`: every entry of
the iterated map occurs in the other map — with no length check, and with
the found value on the left of the `PartialEq` call. -/
def dictAll2 : List (List Nat × BValue) → List (List Nat × BValue) → Bool
  | [], _ => true
  | (k, v1) :: rest, d2 =>
    (match h : findV d2 k with
     | some v2 => beq v2 v1
     | Option.none => false) &&
    dictAll2 rest d2
termination_by a b => sizeOf a + sizeOf b
decreasing_by
  all_goals simp_wf
  all_goals try omega
  all_goals (have hfv := findV_sizeOf h; omega)

end

/-! ## Writer (`writer.rs`)

`write` into a `Vec<u8>` sink never fails, so the `io::Result` layer is
dropped and `write` returns the emitted bytes.  Dictionaries are emitted in
the map's native iteration order, modelled as the association-list order. -/

mutual

/-- `write`: canonical byte encoding of a value.  `None` emits nothing. -/
def write : BValue → List Nat
  | .binary b => natToDec b.length ++ 58 :: b
  | .binaryOwned b => natToDec b.length ++ 58 :: b
  | .string s => natToDec s.length ++ 58 :: s
  | .stringOwned s => natToDec s.length ++ 58 :: s
  | .integer n => 105 :: (intAscii n ++ [101])
  | .list l => 108 :: (writeL l ++ [101])
  | .dictionary d => 100 :: (writeD d ++ [101])
  | .dictionaryOwned d => 100 :: (writeD d ++ [101])
  | .none => []

/-- `write_list` body: concatenation of the element encodings. -/
def writeL : List BValue → List Nat
  | [] => []
  | v :: rest => write v ++ writeL rest

/-- `write_dict` body: `<key as string><value>` per entry, in order. -/
def writeD : List (List Nat × BValue) → List Nat
  | [] => []
  | (k, v) :: rest => (natToDec k.length ++ 58 :: k) ++ (write v ++ writeD rest)

end

/-! ## Recursive parser (`parser.rs`)

`parse` is nom's ordered alternation of the five rules; `Incomplete` aborts
the alternation, a recoverable `Error` falls through to the next rule, and
when every rule fails the first rule's error is reported (matching the
crate's unit tests).

`parseMany` is the `iterator(input, parse)` + `finish` loop used by
`parse_all_no_group` and by the list rule: it collects values until `parse`
returns a recoverable error (stopping before the failing bytes) and
propagates `Incomplete`.  `parseDict` is `many0(pair(parse_string, parse))`
from the dictionary rule.

The two `if h : _.length < _.length` guards are termination bookkeeping for
the loops; their `else` branches mirror nom's `many0` zero-consumption
protection (`ErrorKind::Many0`) and are unreachable because every
successful `parse` consumes at least one byte (`parseF_consumes`). -/

mutual

/-- `parse`: `alt((string, bytes, int, list, dictionary))`. -/
def parseF (i : List Nat) : PResult BValue :=
  match parse_string i with
  | .ok r s => .ok r (.string s)
  | .incomplete n => .incomplete n
  | .err e1 k1 =>
    match parse_bytes i with
    | .ok r b => .ok r (.binary b)
    | .incomplete n => .incomplete n
    | .err _ _ =>
      match parse_int i with
      | .ok r n => .ok r (.integer n)
      | .incomplete n => .incomplete n
      | .err _ _ =>
        match i with
        | c :: rest =>
          if c = 108 then
            -- list rule: delimited(tag("l"), map(parse_all_no_group, List), tag("e"))
            match parseMany rest with
            | .ok r vs =>
              match r with
              | c2 :: r2 => if c2 = 101 then .ok r2 (.list vs) else .err r .tag
              | [] => .err r .tag
            | .err r k => .err r k
            | .incomplete n => .incomplete n
          else if c = 100 then
            -- dictionary rule: delimited(char('d'), many0(pair(parse_string, parse)), char('e'))
            match parseDict rest with
            | .ok r ps =>
              match r with
              | c2 :: r2 =>
                if c2 = 101 then .ok r2 (.dictionary (collectHM ps))
                else .err r .char
              | [] => .err r .char
            | .err r k => .err r k
            | .incomplete n => .incomplete n
          else .err e1 k1
        | [] => .err e1 k1
termination_by (i.length, 0)
decreasing_by all_goals (simp_wf; omega)

/-- The `iterator(input, parse)` + `collect` + `finish` loop. -/
def parseMany (i : List Nat) : PResult (List BValue) :=
  match parseF i with
  | .ok rest v =>
    if h : rest.length < i.length then
      match parseMany rest with
      | .ok r vs => .ok r (v :: vs)
      | .err r k => .err r k
      | .incomplete n => .incomplete n
    else .err i .many0
  | .err _ _ => .ok i []
  | .incomplete n => .incomplete n
termination_by (i.length, 1)
decreasing_by all_goals (simp_wf; omega)

/-- `many0(pair(parse_string, parse))`: pairs are parsed until the pair
parser fails recoverably, rewinding to before the failed pair. -/
def parseDict (i : List Nat) : PResult (List (List Nat × BValue)) :=
  match parse_string i with
  | .ok r1 k =>
    if h1 : r1.length < i.length then
      match parseF r1 with
      | .ok r2 v =>
        if h2 : r2.length < i.length then
          match parseDict r2 with
          | .ok r ps => .ok r ((k, v) :: ps)
          | .err r k' => .err r k'
          | .incomplete n => .incomplete n
        else .err i .many0
      | .err _ _ => .ok i []
      | .incomplete n => .incomplete n
    else .err i .many0
  | .err _ _ => .ok i []
  | .incomplete n => .incomplete n
termination_by (i.length, 2)
decreasing_by all_goals (simp_wf; omega)

end

/-- `parse`, the public single-value entry point. -/
def parse (i : List Nat) : PResult BValue := parseF i

/-- `parse_all_no_group`. -/
def parse_all_no_group (i : List Nat) : PResult (List BValue) := parseMany i

/-- The grouping rule of `parse_all_incomplete`: zero values → `None`, one
value → that value, two or more → `List`. -/
def group (vs : List BValue) : BValue :=
  match vs with
  | [] => .none
  | [v] => v
  | _ => .list vs

/-- `parse_all_incomplete`: iterate `parse`, then group. -/
def parse_all_incomplete (i : List Nat) : PResult BValue :=
  match parseMany i with
  | .ok r vs => .ok r (group vs)
  | .err r k => .err r k
  | .incomplete n => .incomplete n

/-- `parse_all` (the spec's `parse_exact`): `all_consuming(parse_all_incomplete)`. -/
def parse_all (i : List Nat) : PResult BValue :=
  match parse_all_incomplete i with
  | .ok r v => if r.length = 0 then .ok r v else .err r .eof
  | .err r k => .err r k
  | .incomplete n => .incomplete n

/-! ## Decimal-rendering lemmas -/

theorem natToDec_ne_nil (n : Nat) : natToDec n ≠ [] := by
  unfold natToDec
  by_cases h : n = 0
  · simp [h]
  · simp only [h, if_false, ne_eq, List.map_eq_nil_iff, List.reverse_eq_nil_iff]
    exact Nat.digits_ne_nil_iff_ne_zero.mpr h

theorem natToDec_digits (n : Nat) : ∀ c ∈ natToDec n, isDigit c = true := by
  intro c hc
  unfold natToDec at hc
  by_cases h : n = 0
  · simp [h] at hc
    simp [hc, isDigit]
  · simp only [h, if_false, List.mem_map, List.mem_reverse] at hc
    obtain ⟨d, hd, hdc⟩ := hc
    have := Nat.digits_lt_base (by norm_num) hd
    simp only [isDigit, ← hdc, Bool.and_eq_true, decide_eq_true_eq]
    omega

theorem digitsVal_natToDec (n : Nat) : digitsVal (natToDec n) = n := by
  unfold natToDec digitsVal
  by_cases h : n = 0
  · simp [h, Nat.ofDigits]
  · simp only [h, if_false, List.map_map, List.map_reverse, List.reverse_reverse]
    have he : ((fun c => c - 48) ∘ fun d => d + 48) = id := by
      funext d
      simp
    rw [he, List.map_id, Nat.ofDigits_digits]

theorem natToDec_length_le {n k : Nat} (hn : n < 10 ^ k) (hk : 1 ≤ k) :
    (natToDec n).length ≤ k := by
  unfold natToDec
  by_cases h : n = 0
  · simpa [h] using hk
  · simp only [h, if_false, List.length_map, List.length_reverse]
    rw [Nat.digits_len 10 n (by norm_num) h]
    have := Nat.log_lt_of_lt_pow h hn
    omega

theorem takeWhile_append_stop {p : Nat → Bool} {a t : List Nat} {b : Nat}
    (ha : ∀ c ∈ a, p c = true) (hb : p b = false) :
    (a ++ b :: t).takeWhile p = a := by
  rw [List.takeWhile_append_of_pos ha]
  simp [List.takeWhile_cons, hb]

/-! ## Evaluation lemmas for the leaf parsers on encoder output -/

theorem base10_length_enc {L : Nat} (hL : L + 1 ≤ u32Max) (t : List Nat) :
    base10_length (natToDec L ++ 58 :: t) = .ok (58 :: t) (L + 1) := by
  unfold base10_length takeWhileMNmapRes
  rw [takeWhile_append_stop (natToDec_digits L) (by decide)]
  have hne := natToDec_ne_nil L
  have hlen : (natToDec L).length ≤ 20 := by
    refine Nat.le_trans (@natToDec_length_le L 10 ?_ (by norm_num)) (by norm_num)
    unfold u32Max at hL
    norm_num
    omega
  have h1 : ¬((natToDec L).length < 1) := by
    cases hcc : natToDec L with
    | nil => exact absurd hcc hne
    | cons a l => simp [hcc]
  simp only [h1, if_false, List.take_of_length_le hlen]
  have hok : parseRunU32 (natToDec L) = some L := by
    unfold parseRunU32
    rw [if_pos]
    · exact congrArg some (digitsVal_natToDec L)
    · refine ⟨hne, ?_, ?_⟩
      · rw [List.all_eq_true]
        exact natToDec_digits L
      · rw [digitsVal_natToDec]
        omega
  rw [hok]
  simp only [Option.map_some']
  rw [List.drop_left]
  have : (L + 1) % 4294967296 = L + 1 := by
    apply Nat.mod_eq_of_lt
    unfold u32Max at hL
    omega
  rw [this]

theorem base10_length_err_head {c : Nat} (hc : isDigit c = false) (t : List Nat) :
    base10_length (c :: t) = .err (c :: t) .takeWhileMN := by
  unfold base10_length takeWhileMNmapRes
  simp [List.takeWhile_cons, hc]

theorem base10_length_err_nil : base10_length [] = .err [] .takeWhileMN := by
  decide

theorem parse_string_err_head {c : Nat} (hc : isDigit c = false) (t : List Nat) :
    parse_string (c :: t) = .err (c :: t) .takeWhileMN := by
  unfold parse_string lengthValue
  rw [base10_length_err_head hc]

theorem parse_string_err_nil : parse_string [] = .err [] .takeWhileMN := by
  decide

theorem parse_bytes_err_head {c : Nat} (hc : isDigit c = false) (t : List Nat) :
    parse_bytes (c :: t) = .err (c :: t) .takeWhileMN := by
  unfold parse_bytes lengthValue
  rw [base10_length_err_head hc]

theorem parse_int_err_head {c : Nat} (hc : c ≠ 105) (t : List Nat) :
    parse_int (c :: t) = .err (c :: t) .tag := by
  unfold parse_int
  simp [hc]

theorem parse_int_err_nil : parse_int [] = .err [] .tag := by decide

/-- Encoding a string/byte payload: the length prefix, the colon, the raw
bytes, then arbitrary trailing input. -/
theorem parse_string_enc {s : List Nat} (hs : s.length + 1 ≤ u32Max) (rest : List Nat) :
    parse_string ((natToDec s.length ++ 58 :: s) ++ rest) =
      if validUtf8 s then .ok rest s else .err s .verify := by
  unfold parse_string lengthValue
  have hsh : (natToDec s.length ++ 58 :: s) ++ rest =
      natToDec s.length ++ 58 :: (s ++ rest) := by
    simp
  rw [hsh, base10_length_enc hs]
  have hlen2 : ¬((58 :: (s ++ rest)).length < s.length + 1) := by
    simp only [List.length_cons, List.length_append]
    omega
  simp only [hlen2, if_false]
  have htake : (58 :: (s ++ rest)).take (s.length + 1) = 58 :: s := by
    simp only [List.take_succ_cons]
    rw [List.take_left]
  have hdrop : (58 :: (s ++ rest)).drop (s.length + 1) = rest := by
    simp only [List.drop_succ_cons]
    rw [List.drop_left]
  rw [htake, hdrop]
  unfold precededColon parse_utf8_str
  by_cases hv : validUtf8 s <;> simp [hv]

theorem parse_bytes_enc {s : List Nat} (hs : s.length + 1 ≤ u32Max) (rest : List Nat) :
    parse_bytes ((natToDec s.length ++ 58 :: s) ++ rest) = .ok rest s := by
  unfold parse_bytes lengthValue
  have hsh : (natToDec s.length ++ 58 :: s) ++ rest =
      natToDec s.length ++ 58 :: (s ++ rest) := by
    simp
  rw [hsh, base10_length_enc hs]
  have hlen2 : ¬((58 :: (s ++ rest)).length < s.length + 1) := by
    simp only [List.length_cons, List.length_append]
    omega
  simp only [hlen2, if_false]
  have htake : (58 :: (s ++ rest)).take (s.length + 1) = 58 :: s := by
    simp only [List.take_succ_cons]
    rw [List.take_left]
  have hdrop : (58 :: (s ++ rest)).drop (s.length + 1) = rest := by
    simp only [List.drop_succ_cons]
    rw [List.drop_left]
  rw [htake, hdrop]
  unfold precededColon
  simp

theorem parse_bytes_err_nil : parse_bytes [] = .err [] .takeWhileMN := by decide

/-! ## Integer-encoding lemmas -/

theorem intAscii_ne_nil (n : Int) : intAscii n ≠ [] := by
  unfold intAscii
  by_cases h : n < 0
  · simp [h]
  · simp only [h, if_false]
    exact natToDec_ne_nil _

theorem intAscii_chars (n : Int) : ∀ c ∈ intAscii n, (isDigit c || c == 45) = true := by
  intro c hc
  unfold intAscii at hc
  by_cases h : n < 0
  · simp only [h, if_true, List.mem_cons] at hc
    rcases hc with hc | hc
    · simp [hc]
    · simp [natToDec_digits _ _ hc]
  · simp only [h, if_false] at hc
    simp [natToDec_digits _ _ hc]

theorem intAscii_length_le {n : Int} (h1 : -(2 ^ 63) ≤ n) (h2 : n < 2 ^ 63) :
    (intAscii n).length ≤ 20 := by
  unfold intAscii
  by_cases h : n < 0
  · simp only [h, if_true, List.length_cons]
    have hv : n.natAbs ≤ 2 ^ 63 := by omega
    have : (natToDec n.natAbs).length ≤ 19 :=
      natToDec_length_le (by norm_num; omega) (by norm_num)
    omega
  · simp only [h, if_false]
    have hv : n.toNat < 2 ^ 63 := by omega
    have : (natToDec n.toNat).length ≤ 19 :=
      natToDec_length_le (by norm_num; omega) (by norm_num)
    omega

theorem parseRunI64_intAscii {n : Int} (h1 : -(2 ^ 63) ≤ n) (h2 : n < 2 ^ 63) :
    parseRunI64 (intAscii n) = some n := by
  by_cases h : n < 0
  · have hd : intAscii n = 45 :: natToDec n.natAbs := by
      unfold intAscii
      simp [h]
    rw [hd]
    simp only [parseRunI64, if_true]
    rw [if_pos]
    · rw [digitsVal_natToDec]
      congr 1
      omega
    · refine ⟨natToDec_ne_nil _, ?_, ?_⟩
      · rw [List.all_eq_true]
        exact natToDec_digits _
      · rw [digitsVal_natToDec]
        omega
  · have hd : intAscii n = natToDec n.toNat := by
      unfold intAscii
      simp [h]
    rw [hd]
    cases hcc : natToDec n.toNat with
    | nil => exact absurd hcc (natToDec_ne_nil _)
    | cons c ds =>
      have hcd : isDigit c = true := natToDec_digits _ c (by rw [hcc]; exact List.mem_cons_self c ds)
      have hc45 : c ≠ 45 := by
        simp only [isDigit, Bool.and_eq_true, decide_eq_true_eq] at hcd
        omega
      simp only [parseRunI64]
      rw [if_neg hc45, if_pos]
      · rw [← hcc, digitsVal_natToDec]
        congr 1
        omega
      · constructor
        · rw [List.all_eq_true, ← hcc]
          exact natToDec_digits _
        · rw [← hcc, digitsVal_natToDec]
          omega

theorem base10_primary_enc {n : Int} (h1 : -(2 ^ 63) ≤ n) (h2 : n < 2 ^ 63)
    (t : List Nat) : base10_primary (intAscii n ++ 101 :: t) = .ok (101 :: t) n := by
  unfold base10_primary takeWhileMNmapRes
  rw [takeWhile_append_stop (intAscii_chars n) (by decide)]
  have hne := intAscii_ne_nil n
  have hlen : (intAscii n).length ≤ 20 := intAscii_length_le h1 h2
  have hpos : ¬((intAscii n).length < 1) := by
    cases hcc : intAscii n with
    | nil => exact absurd hcc hne
    | cons a l => simp [hcc]
  simp only [hpos, if_false, List.take_of_length_le hlen]
  rw [parseRunI64_intAscii h1 h2, List.drop_left]

theorem parse_int_enc {n : Int} (h1 : -(2 ^ 63) ≤ n) (h2 : n < 2 ^ 63)
    (t : List Nat) : parse_int ((105 :: (intAscii n ++ [101])) ++ t) = .ok t n := by
  have hsh : (105 :: (intAscii n ++ [101])) ++ t = 105 :: (intAscii n ++ 101 :: t) := by
    simp
  rw [hsh]
  simp only [parse_int, if_true]
  rw [base10_primary_enc h1 h2]
  simp

/-! ## One-step evaluation lemmas for the alternation and the loops -/

theorem parseF_eval_string {i r : List Nat} {s : List Nat}
    (h : parse_string i = .ok r s) : parseF i = .ok r (.string s) := by
  unfold parseF
  rw [h]

theorem parseF_eval_binary {i e1 r b : List Nat} {k1 : ErrKind}
    (hs : parse_string i = .err e1 k1) (hb : parse_bytes i = .ok r b) :
    parseF i = .ok r (.binary b) := by
  unfold parseF
  rw [hs, hb]

theorem parseF_eval_int {i e1 e2 r : List Nat} {k1 k2 : ErrKind} {n : Int}
    (hs : parse_string i = .err e1 k1) (hb : parse_bytes i = .err e2 k2)
    (hi : parse_int i = .ok r n) : parseF i = .ok r (.integer n) := by
  unfold parseF
  rw [hs, hb, hi]

theorem parseF_cons_list {t r2 : List Nat} {vs : List BValue}
    (h : parseMany t = .ok (101 :: r2) vs) :
    parseF (108 :: t) = .ok r2 (.list vs) := by
  unfold parseF
  rw [parse_string_err_head (by decide) t, parse_bytes_err_head (by decide) t,
    parse_int_err_head (by decide) t]
  simp [h]

theorem parseF_cons_dict {t r2 : List Nat} {ps : List (List Nat × BValue)}
    (h : parseDict t = .ok (101 :: r2) ps) :
    parseF (100 :: t) = .ok r2 (.dictionary (collectHM ps)) := by
  unfold parseF
  rw [parse_string_err_head (by decide) t, parse_bytes_err_head (by decide) t,
    parse_int_err_head (by decide) t]
  simp [h]

theorem parseF_err_cons {c : Nat} {t : List Nat} (hd : isDigit c = false)
    (hi : c ≠ 105) (hl : c ≠ 108) (hdd : c ≠ 100) :
    parseF (c :: t) = .err (c :: t) .takeWhileMN := by
  unfold parseF
  rw [parse_string_err_head hd t, parse_bytes_err_head hd t, parse_int_err_head hi t]
  simp [hl, hdd]

theorem parseF_nil : parseF [] = .err [] .takeWhileMN := by
  unfold parseF
  rw [parse_string_err_nil, parse_bytes_err_nil, parse_int_err_nil]

theorem parseMany_cons {i rest r : List Nat} {v : BValue} {vs : List BValue}
    (h1 : parseF i = .ok rest v) (h2 : rest.length < i.length)
    (h3 : parseMany rest = .ok r vs) : parseMany i = .ok r (v :: vs) := by
  unfold parseMany
  rw [h1]
  simp only [dif_pos h2, h3]

theorem parseMany_stop {i e : List Nat} {k : ErrKind}
    (h : parseF i = .err e k) : parseMany i = .ok i [] := by
  unfold parseMany
  rw [h]

theorem parseDict_cons {i r1 r2 r : List Nat} {k : List Nat} {v : BValue}
    {ps : List (List Nat × BValue)}
    (h1 : parse_string i = .ok r1 k) (h2 : r1.length < i.length)
    (h3 : parseF r1 = .ok r2 v) (h4 : r2.length < i.length)
    (h5 : parseDict r2 = .ok r ps) : parseDict i = .ok r ((k, v) :: ps) := by
  unfold parseDict
  rw [h1]
  simp only [dif_pos h2, h3, dif_pos h4, h5]

theorem parseDict_stop {i e : List Nat} {k' : ErrKind}
    (h : parse_string i = .err e k') : parseDict i = .ok i [] := by
  unfold parseDict
  rw [h]

theorem parse_all_of_many {i : List Nat} {vs : List BValue}
    (h : parseMany i = .ok [] vs) : parse_all i = .ok [] (group vs) := by
  unfold parse_all parse_all_incomplete
  rw [h]
  rfl

theorem parse_all_trailing {i r : List Nat} {vs : List BValue}
    (h : parseMany i = .ok r vs) (hr : r ≠ []) : parse_all i = .err r .eof := by
  unfold parse_all parse_all_incomplete
  rw [h]
  simp [List.length_eq_zero, hr]

/-! ## Producible values

The shape invariants satisfied by every value the parser can return: all
variants are borrowed, strings are valid UTF-8, binaries are not (the
string rule is tried first), lengths fit the `u32` length-prefix parse with
room for the `+ 1`, integers fit `i64`, and dictionary keys are distinct
(they live in a `HashMap`). -/

inductive Producible : BValue → Prop where
  | binary {b : List Nat} (hb : validUtf8 b = false) (hl : b.length + 1 ≤ u32Max) :
      Producible (.binary b)
  | string {s : List Nat} (hs : validUtf8 s = true) (hl : s.length + 1 ≤ u32Max) :
      Producible (.string s)
  | integer {n : Int} (h1 : -(2 ^ 63) ≤ n) (h2 : n < 2 ^ 63) :
      Producible (.integer n)
  | list {l : List BValue} (h : ∀ v ∈ l, Producible v) : Producible (.list l)
  | dictionary {d : List (List Nat × BValue)}
      (hk : ∀ p ∈ d, validUtf8 p.1 = true ∧ p.1.length + 1 ≤ u32Max)
      (hv : ∀ p ∈ d, Producible p.2)
      (hnd : (d.map (fun p => p.1)).Nodup) : Producible (.dictionary d)

theorem write_ne_nil {v : BValue} (h : Producible v) : write v ≠ [] := by
  cases h <;> simp [write]

/-! ## `collectHM` on duplicate-free input -/

theorem hmInsert_of_not_mem {acc : List (List Nat × BValue)} {k : List Nat}
    {v : BValue} (h : k ∉ acc.map (fun p => p.1)) :
    hmInsert acc k v = acc ++ [(k, v)] := by
  induction acc with
  | nil => rfl
  | cons p rest ih =>
    obtain ⟨k', v'⟩ := p
    simp only [List.map_cons, List.mem_cons] at h
    push_neg at h
    unfold hmInsert
    rw [if_neg (Ne.symm h.1), ih h.2]
    rfl

theorem collectHM_self_aux (d acc : List (List Nat × BValue))
    (h : ((acc ++ d).map (fun p => p.1)).Nodup) :
    d.foldl (fun acc kv => hmInsert acc kv.1 kv.2) acc = acc ++ d := by
  induction d generalizing acc with
  | nil => simp
  | cons p rest ih =>
    obtain ⟨k, v⟩ := p
    simp only [List.foldl_cons]
    have hmap : ((acc ++ (k, v) :: rest).map (fun p => p.1)) =
        acc.map (fun p => p.1) ++ k :: rest.map (fun p => p.1) := by
      simp
    rw [hmap] at h
    have hnotin : k ∉ acc.map (fun p => p.1) := by
      intro hmem
      rcases List.nodup_append.mp h with ⟨_, _, hdisj⟩
      exact hdisj hmem (List.mem_cons_self _ _)
    rw [hmInsert_of_not_mem hnotin]
    rw [ih (acc ++ [(k, v)]) (by simpa using h)]
    simp

theorem collectHM_self {d : List (List Nat × BValue)}
    (hnd : (d.map (fun p => p.1)).Nodup) : collectHM d = d := by
  unfold collectHM
  rw [collectHM_self_aux d [] (by simpa using hnd)]
  simp

/-! ## Round-trip: parsing the writer's output -/

theorem parseMany_write {l : List BValue}
    (hIH : ∀ v ∈ l, (∀ r, parseF (write v ++ r) = .ok r v) ∧ write v ≠ [])
    (r' : List Nat) : parseMany (writeL l ++ 101 :: r') = .ok (101 :: r') l := by
  induction l with
  | nil =>
    simp only [writeL, List.nil_append]
    exact parseMany_stop (parseF_err_cons (by decide) (by decide) (by decide) (by decide))
  | cons x xs ihl =>
    have hx := hIH x (List.mem_cons_self x xs)
    have hxs := fun v hv => hIH v (List.mem_cons_of_mem x hv)
    simp only [writeL, List.append_assoc]
    refine parseMany_cons (hx.1 _) ?_ (ihl hxs)
    have : (write x).length ≠ 0 := by
      simpa [List.length_eq_zero] using hx.2
    simp only [List.length_append]
    omega

theorem parseDict_write {d : List (List Nat × BValue)}
    (hk : ∀ p ∈ d, validUtf8 p.1 = true ∧ p.1.length + 1 ≤ u32Max)
    (hIH : ∀ p ∈ d, ∀ r, parseF (write p.2 ++ r) = .ok r p.2)
    (r' : List Nat) : parseDict (writeD d ++ 101 :: r') = .ok (101 :: r') d := by
  induction d with
  | nil =>
    simp only [writeD, List.nil_append]
    exact parseDict_stop (parse_string_err_head (by decide) r')
  | cons p rest ihd =>
    obtain ⟨k, v⟩ := p
    have hkk := hk (k, v) (List.mem_cons_self _ _)
    have hkr := fun q hq => hk q (List.mem_cons_of_mem _ hq)
    have hvv := hIH (k, v) (List.mem_cons_self _ _)
    have hvr := fun q hq => hIH q (List.mem_cons_of_mem _ hq)
    rw [show writeD ((k, v) :: rest) ++ 101 :: r' =
        (natToDec k.length ++ 58 :: k) ++
          (write v ++ (writeD rest ++ 101 :: r')) from by simp [writeD]]
    have hstr :
        parse_string ((natToDec k.length ++ 58 :: k) ++
          (write v ++ (writeD rest ++ 101 :: r'))) =
          .ok (write v ++ (writeD rest ++ 101 :: r')) k := by
      rw [parse_string_enc hkk.2]
      simp [hkk.1]
    refine parseDict_cons hstr ?_ (hvv _) ?_ (ihd hkr hvr)
    · simp only [List.length_append, List.length_cons]
      omega
    · simp only [List.length_append, List.length_cons]
      omega

/-! ## Soundness: outputs of the parser are producible -/

theorem parse_utf8_str_ok {i r s : List Nat} (h : parse_utf8_str i = .ok r s) :
    validUtf8 s = true ∧ s = i := by
  unfold parse_utf8_str at h
  split at h
  · next hv =>
    simp only [PResult.ok.injEq] at h
    exact ⟨h.2 ▸ hv, h.2.symm⟩
  · simp at h

theorem precededColon_ok {α : Type} {g : List Nat → PResult α} {i r : List Nat}
    {o : α} (h : precededColon g i = .ok r o) :
    ∃ t, i = 58 :: t ∧ g t = .ok r o := by
  cases i with
  | nil => simp [precededColon] at h
  | cons c t =>
    simp only [precededColon] at h
    split at h
    · next hc => exact ⟨t, by rw [hc], h⟩
    · simp at h

theorem lengthValue_ok {α : Type} {f : List Nat → PResult Nat}
    {g : List Nat → PResult α} {i r : List Nat} {o : α}
    (h : lengthValue f g i = .ok r o) :
    ∃ i2 n0 rest0, f i = .ok i2 n0 ∧ n0 ≤ i2.length ∧
      g (i2.take n0) = .ok rest0 o ∧ r = i2.drop n0 := by
  unfold lengthValue at h
  cases hb : f i with
  | ok i2 n0 =>
    rw [hb] at h
    simp only at h
    split at h
    · simp at h
    · next hge =>
      cases hg : g (i2.take n0) with
      | ok rr oo =>
        rw [hg] at h
        simp only [PResult.ok.injEq] at h
        obtain ⟨h1, h2⟩ := h
        subst h2
        exact ⟨i2, n0, rr, rfl, by omega, hg, h1.symm⟩
      | err rr kk => rw [hg] at h; simp at h
      | incomplete m => rw [hg] at h; simp at h
  | err rr kk => rw [hb] at h; simp at h
  | incomplete m => rw [hb] at h; simp at h

theorem base10_length_sound {i i2 : List Nat} {n0 : Nat}
    (h : base10_length i = .ok i2 n0) :
    n0 ≤ u32Max ∧ i2.length + 1 ≤ i.length := by
  unfold base10_length takeWhileMNmapRes at h
  split at h
  · exact absurd h (by simp)
  · next hrun =>
    split at h
    · next v hv =>
      simp only [PResult.ok.injEq] at h
      obtain ⟨h2, h1⟩ := h
      simp only [Option.map_eq_some'] at hv
      obtain ⟨L, hL, hLe⟩ := hv
      unfold parseRunU32 at hL
      split at hL
      · next hc =>
        simp only [Option.some.injEq] at hL
        obtain ⟨hne', hdig', hbound⟩ := hc
        rw [hL] at hbound
        constructor
        · subst h1
          rw [← hLe]
          unfold u32Max at hbound ⊢
          omega
        · subst h2
          have htw : (i.takeWhile isDigit).length ≤ i.length :=
            List.IsPrefix.length_le ( List.takeWhile_prefix _)
          have htk : 1 ≤ ((i.takeWhile isDigit).take 20).length := by
            simp only [List.length_take]
            omega
          have htk2 : ((i.takeWhile isDigit).take 20).length ≤ i.length := by
            simp only [List.length_take]
            omega
          simp only [List.length_drop]
          omega
      · exact absurd hL (by simp)
    · exact absurd h (by simp)

theorem parse_string_sound {i r s : List Nat}
    (h : parse_string i = .ok r s) :
    validUtf8 s = true ∧ s.length + 1 ≤ u32Max ∧ r.length < i.length := by
  obtain ⟨i2, n0, rest0, hb, hge, hg, hr⟩ := lengthValue_ok h
  obtain ⟨hn0, hlen⟩ := base10_length_sound hb
  obtain ⟨t, hdata, hgt⟩ := precededColon_ok hg
  obtain ⟨hv, hst⟩ := parse_utf8_str_ok hgt
  have hdl : (i2.take n0).length = n0 := by
    simp only [List.length_take]
    omega
  rw [hdata] at hdl
  simp only [List.length_cons] at hdl
  subst hst hr
  refine ⟨hv, by omega, ?_⟩
  simp only [List.length_drop]
  omega

theorem parse_bytes_sound {i r b : List Nat}
    (h : parse_bytes i = .ok r b) :
    b.length + 1 ≤ u32Max ∧ r.length < i.length := by
  obtain ⟨i2, n0, rest0, hb, hge, hg, hr⟩ := lengthValue_ok h
  obtain ⟨hn0, hlen⟩ := base10_length_sound hb
  obtain ⟨t, hdata, hgt⟩ := precededColon_ok hg
  simp only [PResult.ok.injEq] at hgt
  obtain ⟨_, hbt⟩ := hgt
  have hdl : (i2.take n0).length = n0 := by
    simp only [List.length_take]
    omega
  rw [hdata] at hdl
  simp only [List.length_cons] at hdl
  subst hbt hr
  refine ⟨by omega, ?_⟩
  simp only [List.length_drop]
  omega

/-- When the byte-string rule succeeds but the text rule failed, the payload
was not valid UTF-8 (both rules share the length prefix and the colon; the
text rule only adds the UTF-8 validation). -/
theorem parse_bytes_ok_string_err {i r b e : List Nat} {k : ErrKind}
    (hb : parse_bytes i = .ok r b) (hs : parse_string i = .err e k) :
    validUtf8 b = false := by
  obtain ⟨i2, n0, rest0, hbase, hge, hg, hr⟩ := lengthValue_ok hb
  obtain ⟨t, hdata, hgt⟩ := precededColon_ok hg
  simp only [PResult.ok.injEq] at hgt
  obtain ⟨_, hbt⟩ := hgt
  subst hbt
  by_contra hvv
  rw [Bool.not_eq_false] at hvv
  have : parse_string i = .ok (i2.drop n0) t := by
    unfold parse_string lengthValue
    rw [hbase]
    simp only
    rw [if_neg (by omega), hdata]
    simp [precededColon, parse_utf8_str, hvv]
  rw [this] at hs
  exact absurd hs (by simp)

theorem parseRunI64_range {l : List Nat} {n : Int}
    (h : parseRunI64 l = some n) : -(2 ^ 63) ≤ n ∧ n < 2 ^ 63 := by
  unfold parseRunI64 at h
  split at h
  · exact absurd h (by simp)
  · split at h
    · split at h
      · next hc =>
        simp only [Option.some.injEq] at h
        have := hc.2.2
        omega
      · exact absurd h (by simp)
    · split at h
      · next hc =>
        simp only [Option.some.injEq] at h
        have := hc.2
        omega
      · exact absurd h (by simp)

theorem base10_primary_sound {i r : List Nat} {n : Int}
    (h : base10_primary i = .ok r n) :
    (-(2 ^ 63) ≤ n ∧ n < 2 ^ 63) ∧ r.length ≤ i.length := by
  unfold base10_primary takeWhileMNmapRes at h
  split at h
  · exact absurd h (by simp)
  · split at h
    · next v hv =>
      simp only [PResult.ok.injEq] at h
      obtain ⟨hr, hn⟩ := h
      subst hr hn
      refine ⟨parseRunI64_range hv, ?_⟩
      simp only [List.length_drop]
      omega
    · exact absurd h (by simp)

theorem parse_int_sound {i r : List Nat} {n : Int}
    (h : parse_int i = .ok r n) :
    (-(2 ^ 63) ≤ n ∧ n < 2 ^ 63) ∧ r.length < i.length := by
  cases i with
  | nil =>
    rw [parse_int_err_nil] at h
    simp at h
  | cons c rest =>
    simp only [parse_int] at h
    split at h
    · cases hp : base10_primary rest with
      | ok r0 v =>
        rw [hp] at h
        obtain ⟨hrange, hlen⟩ := base10_primary_sound hp
        simp only at h
        cases r0 with
        | nil => exact absurd h (by simp)
        | cons c2 r2 =>
          simp only at h
          by_cases hc2 : c2 = 101
          · rw [if_pos hc2] at h
            cases h
            simp only [List.length_cons] at hlen ⊢
            exact ⟨hrange, by omega⟩
          · rw [if_neg hc2] at h
            exact absurd h (by simp)
      | err r' k' => rw [hp] at h; exact absurd h (by simp)
      | incomplete m => rw [hp] at h; exact absurd h (by simp)
    · exact absurd h (by simp)

theorem hmInsert_mem {d : List (List Nat × BValue)} {k : List Nat} {v : BValue}
    {q : List Nat × BValue} (h : q ∈ hmInsert d k v) : q = (k, v) ∨ q ∈ d := by
  induction d with
  | nil => simpa [hmInsert] using h
  | cons p rest ih =>
    obtain ⟨k', v'⟩ := p
    simp only [hmInsert] at h
    by_cases hk : k' = k
    · rw [if_pos hk] at h
      rcases List.mem_cons.mp h with h | h
      · exact Or.inl h
      · exact Or.inr (List.mem_cons_of_mem _ h)
    · rw [if_neg hk] at h
      rcases List.mem_cons.mp h with h | h
      · exact Or.inr (h ▸ List.mem_cons_self _ _)
      · rcases ih h with h | h
        · exact Or.inl h
        · exact Or.inr (List.mem_cons_of_mem _ h)

theorem hmInsert_keys_mem {d : List (List Nat × BValue)} {k : List Nat}
    {v : BValue} {a : List Nat}
    (h : a ∈ (hmInsert d k v).map (fun p => p.1)) :
    a ∈ d.map (fun p => p.1) ∨ a = k := by
  simp only [List.mem_map] at h ⊢
  obtain ⟨q, hq, ha⟩ := h
  rcases hmInsert_mem hq with h | h
  · right
    rw [← ha, h]
  · left
    exact ⟨q, h, ha⟩

theorem hmInsert_nodup {d : List (List Nat × BValue)} {k : List Nat} {v : BValue}
    (h : (d.map (fun p => p.1)).Nodup) :
    ((hmInsert d k v).map (fun p => p.1)).Nodup := by
  induction d with
  | nil => simp [hmInsert]
  | cons p rest ih =>
    obtain ⟨k', v'⟩ := p
    simp only [List.map_cons, List.nodup_cons] at h
    by_cases hk : k' = k
    · simp only [hmInsert, if_pos hk, List.map_cons, List.nodup_cons]
      exact ⟨hk ▸ h.1, h.2⟩
    · simp only [hmInsert, if_neg hk, List.map_cons, List.nodup_cons]
      refine ⟨?_, ih h.2⟩
      intro hmem
      rcases hmInsert_keys_mem hmem with hm | hm
      · exact h.1 hm
      · exact hk hm

theorem collectHM_mem_aux {q : List Nat × BValue} :
    ∀ (ps acc : List (List Nat × BValue)),
      q ∈ ps.foldl (fun acc kv => hmInsert acc kv.1 kv.2) acc →
      q ∈ acc ∨ q ∈ ps := by
  intro ps
  induction ps with
  | nil =>
    intro acc hq
    exact Or.inl hq
  | cons p rest ih =>
    intro acc hq
    simp only [List.foldl_cons] at hq
    rcases ih _ hq with h' | h'
    · rcases hmInsert_mem h' with h'' | h''
      · right
        rw [h'']
        exact List.mem_cons_self _ _
      · exact Or.inl h''
    · exact Or.inr (List.mem_cons_of_mem _ h')

theorem collectHM_mem {ps : List (List Nat × BValue)} {q : List Nat × BValue}
    (h : q ∈ collectHM ps) : q ∈ ps := by
  rcases collectHM_mem_aux ps [] h with h' | h'
  · simp at h'
  · exact h'

theorem collectHM_nodup_aux :
    ∀ (ps acc : List (List Nat × BValue)), (acc.map (fun p => p.1)).Nodup →
      ((ps.foldl (fun acc kv => hmInsert acc kv.1 kv.2) acc).map
        (fun p => p.1)).Nodup := by
  intro ps
  induction ps with
  | nil =>
    intro acc hacc
    simpa using hacc
  | cons p rest ih =>
    intro acc hacc
    simp only [List.foldl_cons]
    exact ih _ (hmInsert_nodup hacc)

theorem collectHM_nodup (ps : List (List Nat × BValue)) :
    ((collectHM ps).map (fun p => p.1)).Nodup :=
  collectHM_nodup_aux ps [] (by simp)

/-- Mutual soundness of the parser loops, by strong induction on the input
length: every value returned is producible, and each layer consumes input
within bounds. -/
theorem parse_sound_all :
    ∀ N, ∀ i : List Nat, i.length ≤ N →
      ((∀ r v, parseF i = .ok r v → Producible v ∧ r.length < i.length) ∧
       (∀ r vs, parseMany i = .ok r vs →
         (∀ v ∈ vs, Producible v) ∧ r.length ≤ i.length) ∧
       (∀ r ps, parseDict i = .ok r ps →
         (∀ p ∈ ps, (validUtf8 p.1 = true ∧ p.1.length + 1 ≤ u32Max) ∧
           Producible p.2) ∧ r.length ≤ i.length)) := by
  intro N
  induction N with
  | zero =>
    intro i hi
    have hnil : i = [] := List.length_eq_zero.mp (Nat.le_zero.mp hi)
    subst hnil
    refine ⟨?_, ?_, ?_⟩
    · intro r v h
      rw [parseF_nil] at h
      exact absurd h (by simp)
    · intro r vs h
      rw [parseMany_stop parseF_nil] at h
      cases h
      exact ⟨by simp, le_refl _⟩
    · intro r ps h
      rw [parseDict_stop parse_string_err_nil] at h
      cases h
      exact ⟨by simp, le_refl _⟩
  | succ N ihN =>
    intro i hi
    have hF : ∀ r v, parseF i = .ok r v → Producible v ∧ r.length < i.length := by
      intro r v h
      unfold parseF at h
      cases hs : parse_string i with
      | ok rs s =>
        rw [hs] at h
        simp only at h
        cases h
        obtain ⟨hv, hb, hc⟩ := parse_string_sound hs
        exact ⟨Producible.string hv hb, hc⟩
      | incomplete m =>
        rw [hs] at h
        exact absurd h (by simp)
      | err e1 k1 =>
        rw [hs] at h
        simp only at h
        cases hby : parse_bytes i with
        | ok rb b =>
          rw [hby] at h
          simp only at h
          cases h
          obtain ⟨hbound, hc⟩ := parse_bytes_sound hby
          exact ⟨Producible.binary (parse_bytes_ok_string_err hby hs) hbound, hc⟩
        | incomplete m =>
          rw [hby] at h
          exact absurd h (by simp)
        | err e2 k2 =>
          rw [hby] at h
          simp only at h
          cases hint : parse_int i with
          | ok ri ni =>
            rw [hint] at h
            simp only at h
            cases h
            obtain ⟨hrange, hc⟩ := parse_int_sound hint
            exact ⟨Producible.integer hrange.1 hrange.2, hc⟩
          | incomplete m =>
            rw [hint] at h
            exact absurd h (by simp)
          | err e3 k3 =>
            rw [hint] at h
            simp only at h
            cases i with
            | nil => exact absurd h (by simp)
            | cons c rest =>
              simp only at h
              by_cases hc108 : c = 108
              · rw [if_pos hc108] at h
                cases hm : parseMany rest with
                | ok rm vs =>
                  rw [hm] at h
                  simp only at h
                  have hrest : rest.length ≤ N := by
                    simp only [List.length_cons] at hi
                    omega
                  have hMany := (ihN rest hrest).2.1 _ _ hm
                  cases rm with
                  | nil => exact absurd h (by simp)
                  | cons c2 r2 =>
                    simp only at h
                    by_cases hc2 : c2 = 101
                    · rw [if_pos hc2] at h
                      cases h
                      refine ⟨Producible.list hMany.1, ?_⟩
                      have := hMany.2
                      simp only [List.length_cons] at this ⊢
                      omega
                    · rw [if_neg hc2] at h
                      exact absurd h (by simp)
                | err rm km =>
                  rw [hm] at h
                  exact absurd h (by simp)
                | incomplete m =>
                  rw [hm] at h
                  exact absurd h (by simp)
              · rw [if_neg hc108] at h
                by_cases hc100 : c = 100
                · rw [if_pos hc100] at h
                  cases hd : parseDict rest with
                  | ok rd ps =>
                    rw [hd] at h
                    simp only at h
                    have hrest : rest.length ≤ N := by
                      simp only [List.length_cons] at hi
                      omega
                    have hDict := (ihN rest hrest).2.2 _ _ hd
                    cases rd with
                    | nil => exact absurd h (by simp)
                    | cons c2 r2 =>
                      simp only at h
                      by_cases hc2 : c2 = 101
                      · rw [if_pos hc2] at h
                        cases h
                        refine ⟨?_, ?_⟩
                        · refine Producible.dictionary ?_ ?_ (collectHM_nodup ps)
                          · intro p hp
                            exact (hDict.1 p (collectHM_mem hp)).1
                          · intro p hp
                            exact (hDict.1 p (collectHM_mem hp)).2
                        · have := hDict.2
                          simp only [List.length_cons] at this ⊢
                          omega
                      · rw [if_neg hc2] at h
                        exact absurd h (by simp)
                  | err rd kd =>
                    rw [hd] at h
                    exact absurd h (by simp)
                  | incomplete m =>
                    rw [hd] at h
                    exact absurd h (by simp)
                · rw [if_neg hc100] at h
                  exact absurd h (by simp)
    refine ⟨hF, ?_, ?_⟩
    · intro r vs h
      unfold parseMany at h
      cases hp : parseF i with
      | ok rest v =>
        rw [hp] at h
        simp only at h
        obtain ⟨hPv, hlt⟩ := hF _ _ hp
        rw [dif_pos hlt] at h
        cases hm : parseMany rest with
        | ok rm vms =>
          rw [hm] at h
          simp only at h
          cases h
          have hrest : rest.length ≤ N := by omega
          have hIH := (ihN rest hrest).2.1 _ _ hm
          refine ⟨?_, ?_⟩
          · intro w hw
            rcases List.mem_cons.mp hw with hw | hw
            · exact hw ▸ hPv
            · exact hIH.1 w hw
          · have := hIH.2
            omega
        | err rm km =>
          rw [hm] at h
          exact absurd h (by simp)
        | incomplete m =>
          rw [hm] at h
          exact absurd h (by simp)
      | err e k =>
        rw [hp] at h
        simp only at h
        cases h
        exact ⟨by simp, le_refl _⟩
      | incomplete m =>
        rw [hp] at h
        exact absurd h (by simp)
    · intro r ps h
      unfold parseDict at h
      cases hs : parse_string i with
      | ok r1 kk =>
        rw [hs] at h
        simp only at h
        obtain ⟨hku, hkb, hklt⟩ := parse_string_sound hs
        rw [dif_pos hklt] at h
        cases hp : parseF r1 with
        | ok r2 v =>
          rw [hp] at h
          simp only at h
          have hr1 : r1.length ≤ N := by omega
          obtain ⟨hPv, hlt2⟩ := (ihN r1 hr1).1 _ _ hp
          have hlt2' : r2.length < i.length := by omega
          rw [dif_pos hlt2'] at h
          cases hd : parseDict r2 with
          | ok rd pss =>
            rw [hd] at h
            simp only at h
            cases h
            have hr2 : r2.length ≤ N := by omega
            have hIH := (ihN r2 hr2).2.2 _ _ hd
            refine ⟨?_, ?_⟩
            · intro p hp'
              rcases List.mem_cons.mp hp' with hp' | hp'
              · rw [hp']
                exact ⟨⟨hku, hkb⟩, hPv⟩
              · exact hIH.1 p hp'
            · have := hIH.2
              omega
          | err rd kd =>
            rw [hd] at h
            exact absurd h (by simp)
          | incomplete m =>
            rw [hd] at h
            exact absurd h (by simp)
        | err e k =>
          rw [hp] at h
          simp only at h
          cases h
          exact ⟨by simp, le_refl _⟩
        | incomplete m =>
          rw [hp] at h
          exact absurd h (by simp)
      | err e k =>
        rw [hs] at h
        simp only at h
        cases h
        exact ⟨by simp, le_refl _⟩
      | incomplete m =>
        rw [hs] at h
        exact absurd h (by simp)

theorem parseF_sound {i r : List Nat} {v : BValue}
    (h : parseF i = .ok r v) : Producible v :=
  ((parse_sound_all i.length i (le_refl _)).1 r v h).1

theorem parseMany_sound {i r : List Nat} {vs : List BValue}
    (h : parseMany i = .ok r vs) : ∀ v ∈ vs, Producible v :=
  ((parse_sound_all i.length i (le_refl _)).2.1 r vs h).1

/-- Every successful `parse_all` result is a producible value or the `None`
sentinel (which arises exactly from the empty top-level group). -/
theorem parse_all_sound {i r : List Nat} {v : BValue}
    (h : parse_all i = .ok r v) : Producible v ∨ v = .none := by
  unfold parse_all parse_all_incomplete at h
  cases hm : parseMany i with
  | ok rm vs =>
    rw [hm] at h
    simp only at h
    split at h
    · cases h
      have hvs := parseMany_sound hm
      cases vs with
      | nil => exact Or.inr rfl
      | cons x xs =>
        cases xs with
        | nil => exact Or.inl (hvs x (List.mem_cons_self _ _))
        | cons y ys => exact Or.inl (Producible.list hvs)
    · exact absurd h (by simp)
  | err rm km =>
    rw [hm] at h
    exact absurd h (by simp)
  | incomplete m =>
    rw [hm] at h
    exact absurd h (by simp)

/-- Round-trip through the single-value parser: for every producible value,
re-parsing its encoding succeeds, returns the value itself, and leaves
exactly the trailing input. -/
theorem parse_write {v : BValue} (hv : Producible v) :
    ∀ rest, parseF (write v ++ rest) = .ok rest v := by
  induction hv with
  | @binary b hb hl =>
    intro rest
    have hss : parse_string (write (.binary b) ++ rest) = .err b .verify := by
      rw [show write (.binary b) = natToDec b.length ++ 58 :: b from rfl,
        parse_string_enc hl]
      simp [hb]
    have hbb : parse_bytes (write (.binary b) ++ rest) = .ok rest b := by
      rw [show write (.binary b) = natToDec b.length ++ 58 :: b from rfl]
      exact parse_bytes_enc hl rest
    exact parseF_eval_binary hss hbb
  | @string s hs hl =>
    intro rest
    have hss : parse_string (write (.string s) ++ rest) = .ok rest s := by
      rw [show write (.string s) = natToDec s.length ++ 58 :: s from rfl,
        parse_string_enc hl]
      simp [hs]
    exact parseF_eval_string hss
  | @integer n h1 h2 =>
    intro rest
    have hw : write (.integer n) ++ rest = (105 :: (intAscii n ++ [101])) ++ rest := rfl
    rw [hw, List.cons_append]
    refine parseF_eval_int (parse_string_err_head (by decide) _)
      (parse_bytes_err_head (by decide) _) ?_
    rw [← List.cons_append, parse_int_enc h1 h2]
  | @list l h ih =>
    intro rest
    have hw : write (.list l) ++ rest = 108 :: (writeL l ++ 101 :: rest) := by
      simp [write]
    rw [hw]
    exact parseF_cons_list (parseMany_write (fun v hv => ⟨ih v hv, write_ne_nil (h v hv)⟩) rest)
  | @dictionary d hk hv hnd ih =>
    intro rest
    have hw : write (.dictionary d) ++ rest = 100 :: (writeD d ++ 101 :: rest) := by
      simp [write]
    rw [hw]
    have := parseF_cons_dict (parseDict_write hk (fun p hp => ih p hp) rest)
    rwa [collectHM_self hnd] at this

/-- `parse_all` round trip: the encoding of a producible value re-parses as
exactly one top-level value, which group-unwraps to the value itself. -/
theorem parse_all_write {v : BValue} (hv : Producible v) :
    parse_all (write v) = .ok [] v := by
  have h1 : parseF (write v) = .ok [] v := by
    have := parse_write hv []
    rwa [List.append_nil] at this
  have h2 : parseMany ([] : List Nat) = .ok [] [] := parseMany_stop parseF_nil
  have hlen : 0 < (write v).length := by
    cases hcc : write v with
    | nil => exact absurd hcc (write_ne_nil hv)
    | cons a l => simp [hcc]
  have hm : parseMany (write v) = .ok [] [v] :=
    parseMany_cons h1 (by simpa using hlen) h2
  have := parse_all_of_many hm
  simpa [group] using this

theorem parse_all_nil : parse_all ([] : List Nat) = .ok [] .none := by
  have hm : parseMany ([] : List Nat) = .ok [] [] := parseMany_stop parseF_nil
  simpa [group] using parse_all_of_many hm

/-! ## Reflexivity of the format-level equality on producible values -/

theorem findV_self {d : List (List Nat × BValue)}
    (hnd : (d.map (fun p => p.1)).Nodup) {k : List Nat} {v : BValue}
    (h : (k, v) ∈ d) : findV d k = some v := by
  induction d with
  | nil => simp at h
  | cons p rest ih =>
    obtain ⟨k', v'⟩ := p
    simp only [List.map_cons, List.nodup_cons] at hnd
    rcases List.mem_cons.mp h with h | h
    · have hk : k = k' := congrArg Prod.fst h
      have hv : v = v' := congrArg Prod.snd h
      unfold findV
      rw [if_pos hk.symm]
      exact congrArg some hv.symm
    · unfold findV
      rw [if_neg ?hne]
      · exact ih hnd.2 h
      case hne =>
        intro hkk
        exact hnd.1 (hkk ▸ (List.mem_map.mpr ⟨(k, v), h, rfl⟩))

theorem beqL_refl {l : List BValue} (h : ∀ x ∈ l, beq x x = true) :
    beqL l l = true := by
  induction l with
  | nil => simp [beqL]
  | cons x xs ih =>
    rw [beqL]
    rw [h x (List.mem_cons_self _ _), ih (fun y hy => h y (List.mem_cons_of_mem _ hy))]
    rfl

theorem dictAll1_of {d1 d2 : List (List Nat × BValue)}
    (h : ∀ p ∈ d1, findV d2 p.1 = some p.2 ∧ beq p.2 p.2 = true) :
    dictAll1 d1 d2 = true := by
  induction d1 with
  | nil => simp [dictAll1]
  | cons p rest ih =>
    obtain ⟨k, v⟩ := p
    obtain ⟨hf, hb⟩ := h (k, v) (List.mem_cons_self _ _)
    rw [dictAll1, hf]
    simp only [hb, Bool.true_and]
    exact ih (fun q hq => h q (List.mem_cons_of_mem _ hq))

/-- `PartialEq` is reflexive on every parser-producible value (all such
values use borrowed variants, for which the comparison arms exist). -/
theorem beq_refl {v : BValue} (hv : Producible v) : beq v v = true := by
  induction hv with
  | binary => simp [beq]
  | string => simp [beq]
  | integer => simp [beq]
  | @list l h ih =>
    rw [beq]
    exact beqL_refl ih
  | @dictionary d hk hv hnd ih =>
    rw [beq]
    simp only [beq_self_eq_true, Bool.true_and]
    exact dictAll1_of (fun p hp => ⟨findV_self hnd (by simpa using hp), ih p hp⟩)

/-! ## Serializer bridge (`ser.rs`, `ser/compound.rs`)

The serde data model shapes the bridge can be driven with.  All integer
widths funnel into `serialize_i64` (modelled by `sInt`); `sChar` carries the
character's UTF-8 bytes (`serialize_char` goes through `serialize_str` on a
one-character string).  A `Serializer` is just `output: Vec<BencodedValue>`;
`runSer` returns the list of values a shape pushes onto it. -/

inductive SValue where
  | sBool (b : Bool)
  | sInt (n : Int)
  | sChar (c : List Nat)
  | sStr (s : List Nat)
  | sBytes (b : List Nat)
  | sNone
  | sSome (v : SValue)
  | sUnit
  | sSeq (elems : List SValue)
  | sTuple (elems : List SValue)
  | sTupleStruct (fields : List SValue)
  | sMap (entries : List (SValue × SValue))
  | sStruct (fields : List (List Nat × SValue))

/-- Serialization outcomes: the two `Error::Message` returns the bridge can
produce, and the two panic sites (`unreachable!()` in the `SerializeSeq`
impl reached with a `Map` compound, and `output.pop().unwrap()` on an empty
local output).  Panics are kept distinct from recoverable errors. -/
inductive SerErr where
  | unsupportedUnit
  | nonStringKey
  | panicUnreachable
  | panicPopEmpty
  deriving DecidableEq, Repr

inductive SResult (α : Type) where
  | ok (a : α)
  | error (e : SerErr)

mutual

/-- The list of values `value.serialize(&mut serializer)` pushes onto the
serializer's `output`. -/
def runSer : SValue → SResult (List BValue)
  | .sBool b => .ok [.integer (if b then 1 else 0)]
  | .sInt n => .ok [.integer n]
  | .sChar c => .ok [.stringOwned c]
  | .sStr s => .ok [.stringOwned s]
  | .sBytes b => .ok [.binaryOwned b]
  | .sNone => .ok []
  | .sSome v => runSer v
  | .sUnit => .error .unsupportedUnit
  | .sSeq es =>
    -- serialize_seq → Compound::new_array; elements into the local
    -- serializer; end pushes List(local.output)
    match runSerSeq es with
    | .ok out => .ok [.list out]
    | .error e => .error e
  | .sTuple es =>
    match runSerSeq es with
    | .ok out => .ok [.list out]
    | .error e => .error e
  | .sTupleStruct _ =>
    -- serialize_tuple_struct returns Compound::new_map, but the
    -- SerializeTupleStruct impl delegates serialize_field and end to the
    -- SerializeSeq impl, whose match accepts only Compound::Array and hits
    -- `unreachable!()` — with or without fields.
    .error .panicUnreachable
  | .sMap entries =>
    match runSerMap entries [] [] with
    | .ok (ks, out) => .ok [.dictionaryOwned (collectHM (List.zip ks out))]
    | .error e => .error e
  | .sStruct fields =>
    -- SerializeStruct: keys.push(key); value into the local serializer and
    -- end zips keys with the local output into a HashMap
    match runSerStruct fields with
    | .ok (ks, out) => .ok [.dictionaryOwned (collectHM (List.zip ks out))]
    | .error e => .error e

/-- Elements of a sequence/tuple, serialized in order into the compound's
local serializer. -/
def runSerSeq : List SValue → SResult (List BValue)
  | [] => .ok []
  | e :: rest =>
    match runSer e with
    | .ok out1 =>
      match runSerSeq rest with
      | .ok out2 => .ok (out1 ++ out2)
      | .error er => .error er
    | .error er => .error er

/-- Struct fields: each field name is recorded and the value serialized into
the local serializer. -/
def runSerStruct : List (List Nat × SValue) → SResult (List (List Nat) × List BValue)
  | [] => .ok ([], [])
  | (k, v) :: rest =>
    match runSer v with
    | .ok out1 =>
      match runSerStruct rest with
      | .ok (ks, out2) => .ok (k :: ks, out1 ++ out2)
      | .error er => .error er
    | .error er => .error er

/-- Map entries: `serialize_key` runs the key through the shared local
serializer and pops the last pushed value, which must be a string;
`serialize_value` then pushes the value.  `ks` and `out` accumulate the key
list and the local output. -/
def runSerMap : List (SValue × SValue) → List (List Nat) → List BValue →
    SResult (List (List Nat) × List BValue)
  | [], ks, out => .ok (ks, out)
  | (k, v) :: rest, ks, out =>
    match runSer k with
    | .ok kPushes =>
      match (out ++ kPushes).getLast? with
      | Option.none => .error .panicPopEmpty
      | some (.string s) =>
        match runSer v with
        | .ok vPushes =>
          runSerMap rest (ks ++ [s]) ((out ++ kPushes).dropLast ++ vPushes)
        | .error er => .error er
      | some (.stringOwned s) =>
        match runSer v with
        | .ok vPushes =>
          runSerMap rest (ks ++ [s]) ((out ++ kPushes).dropLast ++ vPushes)
        | .error er => .error er
      | some _ => .error .nonStringKey
    | .error er => .error er

end

/-- `to_value`: run the serializer on an empty output; a single pushed value
is returned unwrapped, any other count is wrapped in a `List`. -/
def toValue (sv : SValue) : SResult BValue :=
  match runSer sv with
  | .ok out =>
    match out with
    | [v] => .ok v
    | _ => .ok (.list out)
  | .error e => .error e

/-! ## Deserializer bridge (`de.rs`) -/

inductive DeErr where
  | typeMismatch
  | charLenMismatch
  deriving DecidableEq, Repr

/-- `Deserializer::parse_int`. -/
def deParseInt : BValue → Except DeErr Int
  | .integer n => .ok n
  | _ => .error .typeMismatch

/-- Rust `i64 as i32`: two's-complement truncation into `[-2^31, 2^31)`. -/
def wrap32 (n : Int) : Int := (n + 2 ^ 31) % 2 ^ 32 - 2 ^ 31

/-- `Deserializer::parse_float`: `Ok(self.parse_int()? as i32 as _)`.  The
`i32` cast wraps modulo `2^32`; the widening to `f64` is exact on the whole
`i32` range, so the resulting float is modelled by the integer it exactly
represents. -/
def deParseFloat (v : BValue) : Except DeErr Int :=
  match deParseInt v with
  | .ok n => .ok (wrap32 n)
  | .error e => .error e

/-- `Deserializer::parse_char`: a `String`/`StringOwned` whose *byte* length
(`str::len`) is exactly 1 yields its sole character (a one-byte UTF-8
string is a single ASCII character, whose scalar value is that byte);
everything else is an `Error::Message`, never a panic. -/
def deParseChar : BValue → Except DeErr Nat
  | .string s => if s.length = 1 then .ok (s.headD 0) else .error .charLenMismatch
  | .stringOwned s => if s.length = 1 then .ok (s.headD 0) else .error .charLenMismatch
  | _ => .error .typeMismatch

/-! ## Concrete evaluations shared by the claim theorems -/

theorem natToDec_small {n : Nat} (h1 : 0 < n) (h2 : n < 10) :
    natToDec n = [n + 48] := by
  unfold natToDec
  rw [if_neg (by omega)]
  rw [Nat.digits_def' (by norm_num : (1 : Nat) < 10) h1]
  rw [Nat.div_eq_of_lt h2]
  simp [Nat.mod_eq_of_lt h2]

theorem intAscii_small {n : Int} (h1 : 0 < n) (h2 : n < 10) :
    intAscii n = [n.toNat + 48] := by
  unfold intAscii
  rw [if_neg (by omega)]
  exact natToDec_small (by omega) (by omega)

theorem pf_i3e_pre (t : List Nat) :
    parseF (105 :: 51 :: 101 :: t) = .ok t (.integer 3) := by
  refine parseF_eval_int (parse_string_err_head (by decide) _)
    (parse_bytes_err_head (by decide) _) ?_
  have h3 : intAscii 3 = [51] := by
    rw [intAscii_small (by norm_num) (by norm_num)]
    decide
  have : (105 :: 51 :: 101 :: t) = (105 :: (intAscii 3 ++ [101])) ++ t := by
    rw [h3]
    rfl
  rw [this]
  exact parse_int_enc (by norm_num) (by norm_num) t

theorem pf_i4e_pre (t : List Nat) :
    parseF (105 :: 52 :: 101 :: t) = .ok t (.integer 4) := by
  refine parseF_eval_int (parse_string_err_head (by decide) _)
    (parse_bytes_err_head (by decide) _) ?_
  have h4 : intAscii 4 = [52] := by
    rw [intAscii_small (by norm_num) (by norm_num)]
    decide
  have : (105 :: 52 :: 101 :: t) = (105 :: (intAscii 4 ++ [101])) ++ t := by
    rw [h4]
    rfl
  rw [this]
  exact parse_int_enc (by norm_num) (by norm_num) t

theorem pm_nil_ev : parseMany ([] : List Nat) = .ok [] [] :=
  parseMany_stop parseF_nil

theorem pm_i3e : parseMany [105, 51, 101] = .ok [] [.integer 3] :=
  parseMany_cons (pf_i3e_pre []) (by decide) pm_nil_ev

theorem pa_i3e : parse_all [105, 51, 101] = .ok [] (.integer 3) := by
  simpa [group] using parse_all_of_many pm_i3e

theorem pm_i3ei4e :
    parseMany [105, 51, 101, 105, 52, 101] = .ok [] [.integer 3, .integer 4] :=
  parseMany_cons (pf_i3e_pre [105, 52, 101]) (by decide)
    (parseMany_cons (pf_i4e_pre []) (by decide) pm_nil_ev)

theorem pa_i3ei4e :
    parse_all [105, 51, 101, 105, 52, 101] =
      .ok [] (.list [.integer 3, .integer 4]) := by
  simpa [group] using parse_all_of_many pm_i3ei4e

theorem pm_i3ei4e_abc :
    parseMany [105, 51, 101, 105, 52, 101, 97, 98, 99] =
      .ok [97, 98, 99] [.integer 3, .integer 4] :=
  parseMany_cons (pf_i3e_pre [105, 52, 101, 97, 98, 99]) (by decide)
    (parseMany_cons (pf_i4e_pre [97, 98, 99]) (by decide)
      (parseMany_stop (parseF_err_cons (by decide) (by decide) (by decide) (by decide))))

/-! ## Claim C2 -/

/-- C2: `parse_exact` (`parse_all`) applies the single-value parser
repeatedly until the input is exhausted and fails on trailing bytes that
cannot form another value; on success zero parsed values yield `Empty`
(`None`), exactly one yields the value unwrapped, and two or more yield a
`List` of them in input order.  Concretely: `parse_exact(b"") == Empty`,
`parse_exact(b"i3e") == Integer(3)`,
`parse_exact(b"i3ei4e") == List([Integer(3), Integer(4)])`, trailing
`b"abc"` fails, and every success consumes the whole input. -/
theorem C2_parse_exact_grouping :
    parse_all ([] : List Nat) = .ok [] .none ∧
    parse_all [105, 51, 101] = .ok [] (.integer 3) ∧
    parse_all [105, 51, 101, 105, 52, 101] =
      .ok [] (.list [.integer 3, .integer 4]) ∧
    parse_all [105, 51, 101, 105, 52, 101, 97, 98, 99] = .err [97, 98, 99] .eof ∧
    (∀ i r v, parse_all i = .ok r v → r = []) := by
  refine ⟨parse_all_nil, pa_i3e, pa_i3ei4e,
    parse_all_trailing pm_i3ei4e_abc (by simp), ?_⟩
  intro i r v h
  unfold parse_all at h
  cases hpi : parse_all_incomplete i with
  | ok r' v' =>
    rw [hpi] at h
    simp only at h
    split at h
    · next hlen =>
      cases h
      exact List.length_eq_zero.mp hlen
    · exact absurd h (by simp)
  | err r' k' =>
    rw [hpi] at h
    exact absurd h (by simp)
  | incomplete m =>
    rw [hpi] at h
    exact absurd h (by simp)

/-- C2 witness: the consumption clause applied at `b"i3e"`. -/
theorem C2_parse_exact_grouping_witness :
    parse_all [105, 51, 101] = .ok [] (.integer 3) ∧ ([] : List Nat) = [] :=
  ⟨C2_parse_exact_grouping.2.1,
   C2_parse_exact_grouping.2.2.2.2 [105, 51, 101] [] (.integer 3)
     C2_parse_exact_grouping.2.1⟩

/-! ## Claim C1 -/

/-- C1 counterexample: the parser produces the `Empty` value (`None`) from
the empty input, it round-trips syntactically, but the format-level
equality (`PartialEq`) has no `(None, None)` arm, so the re-parsed value
does *not* compare equal to the original — the claim as stated fails at
`v = Empty`. -/
theorem C1_empty_group_not_self_equal :
    parse_all ([] : List Nat) = .ok [] .none ∧
    parse_all (write .none) = .ok [] .none ∧
    beq .none .none = false := by
  refine ⟨parse_all_nil, ?_, ?_⟩
  · rw [show write BValue.none = [] from by simp [write]]
    exact parse_all_nil
  · simp [beq]

/-- C1 (amended): for every value `v` the Parser can produce (any successful
`parse_exact`), writing `v` and re-parsing with `parse_exact` succeeds,
consumes the whole output and returns `v` itself; for every such `v` other
than the `Empty` sentinel the result moreover compares equal to `v` under
the format-level equality (for `Empty` the comparison `None == None`
returns `false`). -/
theorem C1_roundtrip_amended :
    ∀ input r v, parse_all input = .ok r v →
      parse_all (write v) = .ok [] v ∧ (v ≠ .none → beq v v = true) := by
  intro input r v h
  rcases parse_all_sound h with hp | hp
  · exact ⟨parse_all_write hp, fun _ => beq_refl hp⟩
  · subst hp
    refine ⟨?_, fun hne => absurd rfl hne⟩
    rw [show write BValue.none = [] from by simp [write]]
    exact parse_all_nil

/-- C1 witness: the round trip applied to the parse of `b"i3e"`. -/
theorem C1_roundtrip_witness :
    parse_all (write (.integer 3)) = .ok [] (.integer 3) ∧
    (BValue.integer 3 ≠ .none → beq (.integer 3) (.integer 3) = true) :=
  C1_roundtrip_amended [105, 51, 101] [] (.integer 3) pa_i3e

/-! ## Claim C3 -/

/-- C3: the `PartialEq` impl evaluated at the claim's cases.  The
cross-representation arms the claim cites do hold
(`StringOwned == String`, `Binary == String`), but the impl has no
`(StringOwned, StringOwned)` arm — equal-byte owned strings compare
`false` — and the cross-ownership dictionary comparison is a one-sided
subset check with no length test, so an empty `DictionaryOwned` compares
equal to a non-empty `Dictionary` (and the comparison is not even
symmetric). -/
theorem C3_partialeq_evaluation :
    beq (.stringOwned [97, 98, 99]) (.stringOwned [97, 98, 99]) = false ∧
    beq (.stringOwned [97, 98, 99]) (.string [97, 98, 99]) = true ∧
    beq (.binary [97, 98, 99]) (.string [97, 98, 99]) = true ∧
    beq (.dictionaryOwned []) (.dictionary [([97], .integer 1)]) = true ∧
    beq (.dictionary [([97], .integer 1)]) (.dictionaryOwned []) = false := by
  refine ⟨?_, ?_, ?_, ?_, ?_⟩ <;> simp [beq, dictAll2, findV]

/-! ## Claim C4 -/

/-- C4 counterexample: `serialize_none` pushes nothing onto the serializer's
output, so `to_value` of a lone absent `Option` returns `List([])`, not
the `Empty` (`None`) value the claim requires. -/
theorem C4_none_yields_empty_list :
    toValue .sNone = .ok (.list []) ∧ BValue.list [] ≠ BValue.none := by
  constructor
  · simp [toValue, runSer]
  · simp

/-- C4 (amended): the absent case of an `Option` serializes to *nothing*
(no value is pushed), so a lone absent `Option` yields the empty `List`
from `to_value`, not the `Empty` sentinel; the present case serializes to
exactly the inner value's encoding. -/
theorem C4_option_serialization_amended :
    runSer .sNone = .ok [] ∧
    (∀ v, runSer (.sSome v) = runSer v) ∧
    toValue .sNone = .ok (.list []) := by
  refine ⟨by simp [runSer], fun v => by simp [runSer], by simp [toValue, runSer]⟩

/-! ## Claim C7 -/

/-- C7: sequences and tuples do serialize to a `List` of the element
encodings in order, but every tuple-struct serialization panics:
`serialize_tuple_struct` constructs a `Map` compound while the
`SerializeTupleStruct` impl delegates to the `SerializeSeq` impl, whose
match arms accept only `Array` and hit `unreachable!()`. -/
theorem C7_tuple_struct_panics :
    runSer (.sTupleStruct [.sInt 3, .sInt 4]) = .error .panicUnreachable ∧
    runSer (.sSeq [.sInt 3, .sInt 4]) = .ok [.list [.integer 3, .integer 4]] ∧
    runSer (.sTuple [.sInt 3, .sInt 4]) = .ok [.list [.integer 3, .integer 4]] ∧
    (∀ fs, runSer (.sTupleStruct fs) = .error .panicUnreachable) := by
  refine ⟨?_, ?_, ?_, fun fs => ?_⟩ <;> simp [runSer, runSerSeq]

/-! ## Claim C8 -/

/-- C8 counterexample: `parse_char` tests the *byte* length of the string,
so the one-character string `"é"` (bytes `[195, 169]`, a single character
of valid UTF-8) is rejected with a conversion error even though it has
exactly one character. -/
theorem C8_multibyte_char_rejected :
    deParseChar (.stringOwned [195, 169]) = .error .charLenMismatch ∧
    validUtf8 [195, 169] = true ∧
    utf8CharCount [195, 169] = 1 :=
  ⟨rfl, by decide, by decide⟩

/-- C8 (amended): deserializing a character succeeds exactly when the source
is a `String`/`StringOwned` whose UTF-8 byte length is 1 (hence a single
ASCII character), yielding that character; longer strings — including
one-character multi-byte strings — and non-string variants yield a
conversion error, never a panic. -/
theorem C8_char_amended :
    ∀ v c, deParseChar v = .ok c ↔ (v = .string [c] ∨ v = .stringOwned [c]) := by
  intro v c
  constructor
  · intro h
    cases v with
    | string s =>
      simp only [deParseChar] at h
      split at h
      · next hlen =>
        cases s with
        | nil => simp at hlen
        | cons a t =>
          cases t with
          | nil =>
            simp only [List.headD, Except.ok.injEq] at h
            subst h
            exact Or.inl rfl
          | cons b t2 => simp at hlen
      · exact absurd h (by simp)
    | stringOwned s =>
      simp only [deParseChar] at h
      split at h
      · next hlen =>
        cases s with
        | nil => simp at hlen
        | cons a t =>
          cases t with
          | nil =>
            simp only [List.headD, Except.ok.injEq] at h
            subst h
            exact Or.inr rfl
          | cons b t2 => simp at hlen
      · exact absurd h (by simp)
    | binary b => exact absurd h (by simp [deParseChar])
    | binaryOwned b => exact absurd h (by simp [deParseChar])
    | integer n => exact absurd h (by simp [deParseChar])
    | list l => exact absurd h (by simp [deParseChar])
    | dictionary d => exact absurd h (by simp [deParseChar])
    | dictionaryOwned d => exact absurd h (by simp [deParseChar])
    | none => exact absurd h (by simp [deParseChar])
  · intro h
    rcases h with h | h <;> subst h <;> simp [deParseChar]

/-- C8 witness: a one-byte string deserializes to its character. -/
theorem C8_char_witness : deParseChar (.string [97]) = .ok 97 :=
  (C8_char_amended (.string [97]) 97).mpr (Or.inl rfl)

/-! ## Claim C9 -/

/-- C9: `parse_float` narrows the integer through `as i32` (two's-complement
reduction modulo `2^32` into `[-2^31, 2^31)`) and then widens to float —
exact on that range, so the float is modelled by the integer it represents.
Inside the 32-bit signed range the result is exactly `n`; outside it is the
wrapped value, which differs from `n` and is congruent to it modulo
`2^32`. -/
theorem C9_float_via_i32 :
    ∀ n : Int,
      deParseFloat (.integer n) = .ok (wrap32 n) ∧
      (-(2 ^ 31) ≤ n ∧ n < 2 ^ 31 → wrap32 n = n) ∧
      (n < -(2 ^ 31) ∨ 2 ^ 31 ≤ n →
        wrap32 n ≠ n ∧ -(2 ^ 31) ≤ wrap32 n ∧ wrap32 n < 2 ^ 31 ∧
          (n - wrap32 n) % 2 ^ 32 = 0) := by
  intro n
  refine ⟨rfl, ?_, ?_⟩
  · intro h
    unfold wrap32
    omega
  · intro h
    unfold wrap32
    omega

/-- C9 witness: a value just above the 32-bit range wraps; a small value is
preserved. -/
theorem C9_float_via_i32_witness :
    deParseFloat (.integer (2 ^ 32 + 7)) = .ok (wrap32 (2 ^ 32 + 7)) ∧
    wrap32 (2 ^ 32 + 7) ≠ 2 ^ 32 + 7 ∧
    wrap32 5 = 5 :=
  ⟨(C9_float_via_i32 (2 ^ 32 + 7)).1,
   ((C9_float_via_i32 (2 ^ 32 + 7)).2.2 (Or.inr (by norm_num))).1,
   (C9_float_via_i32 5).2.1 (by norm_num)⟩

/-! ## Claim C10 -/

/-- C10: `to_value` groups the root-level output exactly like the code
says: one pushed value is returned unwrapped, any other number of pushed
values (zero included) is wrapped in a `List` — so a record that
serializes nothing yields `List([])`, not the `Empty` sentinel. -/
theorem C10_to_value_grouping :
    (∀ sv v, runSer sv = .ok [v] → toValue sv = .ok v) ∧
    (∀ sv out, runSer sv = .ok out → out.length ≠ 1 → toValue sv = .ok (.list out)) ∧
    toValue .sNone = .ok (.list []) := by
  refine ⟨?_, ?_, by simp [toValue, runSer]⟩
  · intro sv v h
    unfold toValue
    rw [h]
  · intro sv out h hne
    unfold toValue
    rw [h]
    match out, hne with
    | [], _ => rfl
    | [x], hne => exact absurd rfl hne
    | x :: y :: t, _ => rfl

/-- C10 witness: a single push unwraps, zero pushes give the empty list. -/
theorem C10_to_value_grouping_witness :
    toValue (.sInt 3) = .ok (.integer 3) ∧ toValue .sNone = .ok (.list []) :=
  ⟨C10_to_value_grouping.1 (.sInt 3) (.integer 3) (by simp [runSer]),
   C10_to_value_grouping.2.1 .sNone [] (by simp [runSer]) (by simp)⟩

/-! ## Claim C5 -/

/-- C5 counterexample: `i9223372036854775808e` has the claimed shape — `i`,
then 19 decimal digits (well within the 20-digit cap, no empty run), then
`e` — yet `parse_int` rejects it: the digit run overflows
`i64::from_str_radix`, which the claim's "fails precisely when the digit
run is empty or exceeds the 20-digit cap" does not allow. -/
theorem C5_i64_overflow_rejected :
    (∀ c ∈ [57, 50, 50, 51, 51, 55, 50, 48, 51, 54, 56, 53, 52, 55, 55, 53,
      56, 48, 56], isDigit c = true) ∧
    ([57, 50, 50, 51, 51, 55, 50, 48, 51, 54, 56, 53, 52, 55, 55, 53, 56, 48,
      56] : List Nat).length = 19 ∧
    parse_int (105 :: [57, 50, 50, 51, 51, 55, 50, 48, 51, 54, 56, 53, 52, 55,
      55, 53, 56, 48, 56] ++ [101]) =
      .err ([57, 50, 50, 51, 51, 55, 50, 48, 51, 54, 56, 53, 52, 55, 55, 53,
        56, 48, 56] ++ [101]) .mapRes := by
  refine ⟨by decide, by decide, by decide⟩

/-- C5 (amended): `parse_int` accepts exactly the inputs `i<run>e` where
`run` is a 1–20-character string over digits and `'-'` that
`i64::from_str_radix` accepts (an optional single leading `'-'`, at least
one digit, value within the signed 64-bit range; the `'-'` counts toward
the 20-character cap).  Leading zeros are not rejected; `i-0e` and `i0e`
parse to zero; the truncated `i3` is an error, never a partial success. -/
theorem C5_int_rule_amended :
    (∀ i r n, parse_int i = .ok r n ↔
      ∃ run : List Nat, i = 105 :: (run ++ 101 :: r) ∧ 1 ≤ run.length ∧
        run.length ≤ 20 ∧ (∀ c ∈ run, isDigit c = true ∨ c = 45) ∧
        parseRunI64 run = some n) ∧
    parse_int [105, 45, 48, 101] = .ok [] 0 ∧
    parse_int [105, 48, 101] = .ok [] 0 ∧
    parse_int [105, 51] = .err [] .tag := by
  refine ⟨?_, by decide, by decide, by decide⟩
  intro i r n
  constructor
  · intro h
    cases i with
    | nil =>
      rw [parse_int_err_nil] at h
      exact absurd h (by simp)
    | cons c rest =>
      simp only [parse_int] at h
      split at h
      · next hc =>
        subst hc
        cases hp : base10_primary rest with
        | ok r0 v0 =>
          rw [hp] at h
          simp only at h
          cases r0 with
          | nil => exact absurd h (by simp)
          | cons c2 r2 =>
            simp only at h
            by_cases hc2 : c2 = 101
            · rw [if_pos hc2] at h
              cases h
              subst hc2
              unfold base10_primary takeWhileMNmapRes at hp
              split at hp
              · exact absurd hp (by simp)
              · next hrun =>
                cases hfv : parseRunI64
                    ((rest.takeWhile fun c => isDigit c || c == 45).take 20) with
                | none =>
                  rw [hfv] at hp
                  exact absurd hp (by simp)
                | some vv =>
                  rw [hfv] at hp
                  simp only [PResult.ok.injEq] at hp
                  obtain ⟨hdrop, hvv⟩ := hp
                  refine ⟨(rest.takeWhile fun c => isDigit c || c == 45).take 20,
                    ?_, ?_, ?_, ?_, ?_⟩
                  · congr 1
                    have hpre :
                        (rest.takeWhile fun c => isDigit c || c == 45).take 20 <+: rest :=
                      List.IsPrefix.trans ( List.take_prefix _ _) ( List.takeWhile_prefix _)
                    have heq := List.prefix_iff_eq_take.mp hpre
                    conv_lhs => rw [← List.take_append_drop
                      ((rest.takeWhile fun c => isDigit c || c == 45).take 20).length rest]
                    rw [← heq, hdrop]
                  · simp only [List.length_take]
                    omega
                  · simp only [List.length_take]
                    omega
                  · intro c hc
                    have hmem : c ∈ rest.takeWhile fun c => isDigit c || c == 45 :=
                      List.take_subset _ _ hc
                    have := List.mem_takeWhile_imp hmem
                    simp only [Bool.or_eq_true, beq_iff_eq] at this
                    exact this
                  · rw [hfv, hvv]
            · rw [if_neg hc2] at h
              exact absurd h (by simp)
        | err r' k' =>
          rw [hp] at h
          exact absurd h (by simp)
        | incomplete m =>
          rw [hp] at h
          exact absurd h (by simp)
      · exact absurd h (by simp)
  · rintro ⟨run, hi, h1, h20, hchars, hrun⟩
    subst hi
    have hbp : base10_primary (run ++ 101 :: r) = .ok (101 :: r) n := by
      unfold base10_primary takeWhileMNmapRes
      rw [takeWhile_append_stop
        (fun c hc => by rcases hchars c hc with h | h <;> simp [h]) (by decide)]
      rw [List.take_of_length_le h20, if_neg (by omega), hrun, List.drop_left]
    simp only [parse_int, if_true]
    rw [hbp]
    simp

/-- C5 witness: the characterization applied at `i5e`. -/
theorem C5_int_rule_witness : parse_int [105, 53, 101] = .ok [] 5 :=
  (C5_int_rule_amended.1 [105, 53, 101] [] 5).mpr
    ⟨[53], rfl, by decide, by decide, by decide, by decide⟩

/-! ## Claim C6 -/

/-- C6 counterexample: in `4294967296:x` the declared decimal length
(4294967296) exceeds the single byte remaining after the `':'`, yet the
parse fails with the malformed (`Err::Error`, `ErrorKind::MapRes`)
category, not the incomplete category: the length overflows the `u32`
length parse. -/
theorem C6_overflow_length_is_malformed :
    parse_string [52, 50, 57, 52, 57, 54, 55, 50, 57, 54, 58, 120] =
      .err [52, 50, 57, 52, 57, 54, 55, 50, 57, 54, 58, 120] .mapRes ∧
    parse_bytes [52, 50, 57, 52, 57, 54, 55, 50, 57, 54, 58, 120] =
      .err [52, 50, 57, 52, 57, 54, 55, 50, 57, 54, 58, 120] .mapRes ∧
    digitsVal [52, 50, 57, 52, 57, 54, 55, 50, 57, 54] = 4294967296 ∧
    ([120] : List Nat).length < 4294967296 := by
  refine ⟨by decide, by decide, by decide, by decide⟩

/-- C6 (amended): whenever the declared decimal length `L` fits the 32-bit
length parse with room for the internal `+ 1` (`L + 1 ≤ u32::MAX`) and
exceeds the number of bytes remaining after the `':'`, both string parsers
fail with the incomplete category (`Needed::Size(L + 1)`), never the
malformed category; declared lengths at or beyond `u32::MAX` instead fail
as malformed (see the counterexample). -/
theorem C6_truncated_is_incomplete :
    ∀ (ds tail : List Nat), (∀ c ∈ ds, isDigit c = true) → 1 ≤ ds.length →
      ds.length ≤ 20 → digitsVal ds + 1 ≤ u32Max → tail.length < digitsVal ds →
      parse_string (ds ++ 58 :: tail) = .incomplete (digitsVal ds + 1) ∧
      parse_bytes (ds ++ 58 :: tail) = .incomplete (digitsVal ds + 1) := by
  intro ds tail hds h1 h20 hbound htail
  have hne : ds ≠ [] := by
    intro hh
    rw [hh] at h1
    simp at h1
  have hbl : base10_length (ds ++ 58 :: tail) = .ok (58 :: tail) (digitsVal ds + 1) := by
    unfold base10_length takeWhileMNmapRes
    rw [takeWhile_append_stop hds (by decide)]
    rw [List.take_of_length_le h20, if_neg (by omega)]
    beta_reduce
    rw [show parseRunU32 ds = some (digitsVal ds) from by
      unfold parseRunU32
      rw [if_pos ⟨hne, List.all_eq_true.mpr hds, by unfold u32Max at hbound ⊢; omega⟩]]
    simp only [Option.map_some']
    rw [List.drop_left]
    congr 1
    apply Nat.mod_eq_of_lt
    unfold u32Max at hbound
    omega
  constructor
  · unfold parse_string lengthValue
    rw [hbl]
    simp only
    rw [if_pos (by simp only [List.length_cons]; omega)]
  · unfold parse_bytes lengthValue
    rw [hbl]
    simp only
    rw [if_pos (by simp only [List.length_cons]; omega)]

/-- C6 witness: the crate's own test case `3:ab` — declared length 3,
two bytes after the colon — is incomplete with `Needed::Size(4)`. -/
theorem C6_truncated_is_incomplete_witness :
    parse_string [51, 58, 97, 98] = .incomplete 4 ∧
    parse_bytes [51, 58, 97, 98] = .incomplete 4 := by
  have h := C6_truncated_is_incomplete [51] [97, 98] (by decide) (by decide)
    (by decide) (by decide) (by decide)
  rwa [show digitsVal [51] = 3 from by decide] at h

end Tortue
